import Mathlib

/-!
Logical clocks: the vector clock of `logicalclock/vector/vector.go`, followed by
the Lamport clock of `lamport/lamport.go` (namespace `Lamport`)

A Go `map[string]uint64` is embedded as an association list of `(key, counter)`
pairs.  The functions below do not require the list to be a genuine map
(distinct keys, counters below `2 ^ 64`); the predicate `Table.WF` states that
it is one, and separate lemmas show that every operation preserves it.  Ranging
over the map (`for k, v := range m`) is a left fold over the entries, so a
statement quantified over all tables covers every iteration order.

Go methods have pointer receivers.  The value-level functions
(`VectorClock.Merge`, `VectorClock.Increment`, `VectorClock.Compare`) take the
state of the receiver and of the argument; `Heap` places clocks at addresses so
that the receiver and the argument of a call may be the same object.
-/

namespace VectorClockModel

/-- The wrap-around modulus of `uint64`. -/
def U64 : Nat := 2 ^ 64

/-- The Go enumeration `Relation` (`Before = iota`, `After`, `Concurrent`, `Equal`). -/
inductive Relation where
  | Before
  | After
  | Concurrent
  | Equal
  deriving DecidableEq, Repr

/-- A Go `map[string]uint64`: its entries in some iteration order. -/
abbrev Table := List (String × Nat)

namespace Table

/-- The comma-ok read `v, ok := m[k]`: `none` when the key is absent. -/
def lookup : Table → String → Option Nat
  | [], _ => none
  | (k', v) :: m, k => if k' = k then some v else lookup m k

/-- The plain read `m[k]`: an absent key reads as the zero value. -/
def get (m : Table) (k : String) : Nat :=
  match lookup m k with
  | some v => v
  | none => 0

/-- The write `m[k] = v`: overwrites the entry of `k`, or adds one. -/
def set : Table → String → Nat → Table
  | [], k, v => [(k, v)]
  | (k', v') :: m, k, v => if k' = k then (k', v) :: m else (k', v') :: set m k v

/-- The keys of the map, in iteration order. -/
def keys (m : Table) : List String := m.map Prod.fst

/-- The list is a genuine `map[string]uint64`: keys are distinct and every
counter fits in 64 bits. -/
def WF (m : Table) : Prop := (keys m).Nodup ∧ ∀ e ∈ m, e.2 < U64

instance (m : Table) : Decidable (WF m) := by
  unfold WF; infer_instance

end Table

/-- A Go `map[string]struct{}` used as a set of node names. -/
abbrev NodeSet := List String

/-- The write `allNodes[node] = struct{}{}`. -/
def NodeSet.add (s : NodeSet) (node : String) : NodeSet :=
  if node ∈ s then s else s ++ [node]

/-- The struct `VectorClock` without its lock. -/
structure VectorClock where
  nodeID : String
  timestamps : Table
  deriving DecidableEq, Repr

/-- The constructor `NewVectorClock(nodeID)`: an empty table. -/
def NewVectorClock (nodeID : String) : VectorClock :=
  { nodeID := nodeID, timestamps := [] }

namespace VectorClock

/-- The method `cloneTimestamps`: a fresh map filled entry by entry. -/
def cloneTimestamps (vc : VectorClock) : Table :=
  vc.timestamps.foldl (fun m e => Table.set m e.1 e.2) []

/-- The method `Increment`: `vc.timestamps[vc.nodeID]++` on a `uint64`. -/
def Increment (vc : VectorClock) : VectorClock :=
  { vc with timestamps :=
      Table.set vc.timestamps vc.nodeID ((Table.get vc.timestamps vc.nodeID + 1) % U64) }

/-- One iteration of the loop of `Merge` for the entry `(node, ts)` of the copy. -/
def mergeStep (m : Table) (e : String × Nat) : Table :=
  match Table.lookup m e.1 with
  | none => Table.set m e.1 e.2
  | some current => if e.2 > current then Table.set m e.1 e.2 else m

/-- The method `Merge`: the new state of the receiver `vc`; `other` is only read,
through `cloneTimestamps`. -/
def Merge (vc other : VectorClock) : VectorClock :=
  let otherCopy := cloneTimestamps other
  { vc with timestamps := otherCopy.foldl mergeStep vc.timestamps }

/-- The three flags of `Compare`. -/
structure Flags where
  allLessOrEqual : Bool
  allGreaterOrEqual : Bool
  foundDifference : Bool
  deriving DecidableEq, Repr

/-- One iteration of the comparison loop of `Compare` for the key `node`. -/
def compareStep (vcCopy otherCopy : Table) (f : Flags) (node : String) : Flags :=
  let v := Table.get vcCopy node
  let o := Table.get otherCopy node
  let f1 : Flags :=
    if v < o then { f with allGreaterOrEqual := false }
    else if v > o then { f with allLessOrEqual := false }
    else f
  if v ≠ o then { f1 with foundDifference := true } else f1

/-- The union of the key sets built by the two first loops of `Compare`. -/
def allNodes (vcCopy otherCopy : Table) : NodeSet :=
  (Table.keys otherCopy).foldl NodeSet.add ((Table.keys vcCopy).foldl NodeSet.add [])

/-- The flags after the comparison loop of `Compare`. -/
def compareFlags (vcCopy otherCopy : Table) : Flags :=
  (allNodes vcCopy otherCopy).foldl (compareStep vcCopy otherCopy)
    { allLessOrEqual := true, allGreaterOrEqual := true, foundDifference := false }

/-- The method `Compare`. -/
def Compare (vc other : VectorClock) : Relation :=
  let vcCopy := cloneTimestamps vc
  let otherCopy := cloneTimestamps other
  let f := compareFlags vcCopy otherCopy
  if !f.foundDifference then Relation.Equal
  else if f.allLessOrEqual then Relation.Before
  else if f.allGreaterOrEqual then Relation.After
  else Relation.Concurrent

/-- Some key of the union carries different counters in the two tables. -/
def Differ (a b : Table) : Prop :=
  ∃ k, (k ∈ Table.keys a ∨ k ∈ Table.keys b) ∧ Table.get a k ≠ Table.get b k

/-- Every key of the union has a counter in `a` at most its counter in `b`. -/
def AllLe (a b : Table) : Prop :=
  ∀ k, k ∈ Table.keys a ∨ k ∈ Table.keys b → Table.get a k ≤ Table.get b k

end VectorClock

namespace VectorClock

/-- The method `ToMap`: a fresh map filled entry by entry from the table. -/
def ToMap (vc : VectorClock) : Table :=
  vc.timestamps.foldl (fun m e => Table.set m e.1 e.2) []

/-- The method `FromMap`: the table is replaced by a fresh map filled entry by
entry from `data`. -/
def FromMap (vc : VectorClock) (data : Table) : VectorClock :=
  { vc with timestamps := data.foldl (fun m e => Table.set m e.1 e.2) [] }

end VectorClock

/-- The clocks of a program, by address: a `*VectorClock` is an address. -/
abbrev Heap := Nat → VectorClock

namespace Heap

/-- The call `p.Increment()`. -/
def Increment (h : Heap) (p : Nat) : Heap :=
  Function.update h p (VectorClock.Increment (h p))

/-- The call `p.Merge(q)`; `p` and `q` may be the same clock. -/
def Merge (h : Heap) (p q : Nat) : Heap :=
  Function.update h p (VectorClock.Merge (h p) (h q))

/-- The call `p.Compare(q)`, which writes nothing. -/
def Compare (h : Heap) (p q : Nat) : Relation :=
  VectorClock.Compare (h p) (h q)

/-- The call `p.ToMap()`, which writes nothing. -/
def ToMap (h : Heap) (p : Nat) : Table :=
  VectorClock.ToMap (h p)

/-- The call `p.FromMap(data)`. -/
def FromMap (h : Heap) (p : Nat) (data : Table) : Heap :=
  Function.update h p (VectorClock.FromMap (h p) data)

end Heap

/-- A call of a public method of `VectorClock`, with its receiver and argument. -/
inductive Op where
  | Increment (p : Nat)
  | Merge (p q : Nat)
  | Compare (p q : Nat)
  | ToMap (p : Nat)
  | FromMap (p : Nat) (data : Table)

/-- The clocks after a call; `Compare` and `ToMap` only read, under the read lock. -/
def Heap.step (h : Heap) : Op → Heap
  | Op.Increment p => Heap.Increment h p
  | Op.Merge p q => Heap.Merge h p q
  | Op.Compare _ _ => h
  | Op.ToMap _ => h
  | Op.FromMap p data => Heap.FromMap h p data

/-- The clock of node "A" at address 0 and the clock of node "B" at address 1, both
fresh and then incremented once: the tables `{A:1}` and `{B:1}`. -/
def scenario : Heap :=
  Heap.Increment
    (Heap.Increment (fun n => if n = 0 then NewVectorClock "A" else NewVectorClock "B") 0) 1

end VectorClockModel

/-!
The Lamport clock of `lamport/lamport.go`.  The field `time` is an `int64`: an
integer of the range `I64.InRange`, and Go arithmetic on it wraps around (`I64.wrap`).
Every method holds the mutex from entry to return, so a call is one state transition;
a method that returns a value gives the new state and the value.
-/

namespace Lamport

/-- The least `int64`. -/
def I64.MIN : Int := -(2 ^ 63)

/-- The greatest `int64`. -/
def I64.MAX : Int := 2 ^ 63 - 1

/-- The integer is an `int64` value. -/
def I64.InRange (z : Int) : Prop := I64.MIN ≤ z ∧ z ≤ I64.MAX

instance (z : Int) : Decidable (I64.InRange z) := by
  unfold I64.InRange; infer_instance

/-- The `int64` that Go arithmetic gives for the exact result `z`. -/
def I64.wrap (z : Int) : Int := (z + 2 ^ 63) % 2 ^ 64 - 2 ^ 63

/-- The struct `LogicalClock` without its lock. -/
structure LogicalClock where
  time : Int
  deriving DecidableEq, Repr

/-- The constructor `NewLogicalClock(initialTime)`. -/
def NewLogicalClock (initialTime : Int) : LogicalClock :=
  { time := initialTime }

namespace LogicalClock

/-- The method `Increment`: `lc.time++`, then the new time is returned. -/
def Increment (lc : LogicalClock) : LogicalClock × Int :=
  let lc1 : LogicalClock := { time := I64.wrap (lc.time + 1) }
  (lc1, lc1.time)

/-- The method `Update`: `lc.time = max(lc.time, receivedTime) + 1`, then the new
time is returned. -/
def Update (lc : LogicalClock) (receivedTime : Int) : LogicalClock × Int :=
  let lc1 : LogicalClock := { time := I64.wrap (max lc.time receivedTime + 1) }
  (lc1, lc1.time)

/-- The method `Now`: the time is returned and nothing is written. -/
def Now (lc : LogicalClock) : LogicalClock × Int :=
  (lc, lc.time)

/-- The method `Advance`: the time is overwritten only by a greater `newTime`. -/
def Advance (lc : LogicalClock) (newTime : Int) : LogicalClock :=
  if newTime > lc.time then { time := newTime } else lc

/-- The clock after `n` sequential calls of `Increment` and the values the calls
returned, in order. -/
def IncrementTimes : LogicalClock → Nat → LogicalClock × List Int
  | lc, 0 => (lc, [])
  | lc, n + 1 =>
    let r := Increment lc
    let rest := IncrementTimes r.1 n
    (rest.1, r.2 :: rest.2)

end LogicalClock

/-- A call of a public method of `LogicalClock`, with its argument. -/
inductive Op where
  | Increment
  | Update (receivedTime : Int)
  | Now
  | Advance (newTime : Int)

/-- The clock after a call. -/
def LogicalClock.step (lc : LogicalClock) : Op → LogicalClock
  | Op.Increment => (LogicalClock.Increment lc).1
  | Op.Update receivedTime => (LogicalClock.Update lc receivedTime).1
  | Op.Now => (LogicalClock.Now lc).1
  | Op.Advance newTime => LogicalClock.Advance lc newTime

end Lamport

namespace VectorClockModel

/-! ## Reading and writing a table -/

namespace Table

theorem lookup_eq_none_iff (m : Table) (k : String) : lookup m k = none ↔ k ∉ keys m := by
  induction m with
  | nil => simp [lookup, keys]
  | cons e m ih =>
    obtain ⟨k', v⟩ := e
    by_cases h : k' = k
    · simp [lookup, keys, h]
    · have h' : ¬ k = k' := fun c => h c.symm
      simpa [lookup, keys, h, h'] using ih

theorem lookup_isSome_iff (m : Table) (k : String) : (∃ v, lookup m k = some v) ↔ k ∈ keys m := by
  have h := lookup_eq_none_iff m k
  cases hl : lookup m k with
  | none => simpa [hl] using h
  | some v =>
    rw [hl] at h
    simp only [reduceCtorEq, false_iff, not_not] at h
    simpa using h

theorem get_eq_zero_of_not_mem {m : Table} {k : String} (h : k ∉ keys m) : get m k = 0 := by
  unfold get
  rw [(lookup_eq_none_iff m k).2 h]

theorem get_of_lookup {m : Table} {k : String} {v : Nat} (h : lookup m k = some v) :
    get m k = v := by
  unfold get
  rw [h]

theorem mem_keys_of_get_pos {m : Table} {k : String} (h : 0 < get m k) : k ∈ keys m := by
  by_contra hk
  rw [get_eq_zero_of_not_mem hk] at h
  exact Nat.lt_irrefl 0 h

theorem lookup_set (m : Table) (k : String) (v : Nat) (k' : String) :
    lookup (set m k v) k' = if k = k' then some v else lookup m k' := by
  induction m with
  | nil => simp [set, lookup]
  | cons e m ih =>
    obtain ⟨k0, v0⟩ := e
    by_cases h : k0 = k
    · subst h
      by_cases h' : k0 = k' <;> simp [set, lookup, h']
    · by_cases h' : k0 = k'
      · subst h'
        have : ¬ k = k0 := fun c => h c.symm
        simp [set, lookup, h, this]
      · simp [set, lookup, h, h', ih]

theorem get_set (m : Table) (k : String) (v : Nat) (k' : String) :
    get (set m k v) k' = if k = k' then v else get m k' := by
  unfold get
  rw [lookup_set]
  by_cases h : k = k' <;> simp [h]

theorem set_of_not_mem {m : Table} {k : String} (v : Nat) (h : k ∉ keys m) :
    set m k v = m ++ [(k, v)] := by
  induction m with
  | nil => rfl
  | cons e m ih =>
    obtain ⟨k0, v0⟩ := e
    have h0 : ¬ k0 = k := by
      intro c; apply h; simp [keys, c]
    have hm : k ∉ keys m := by
      intro c; apply h; simp only [keys, List.map_cons, List.mem_cons]; exact Or.inr c
    simp [set, h0, ih hm]

theorem keys_set (m : Table) (k : String) (v : Nat) :
    keys (set m k v) = if k ∈ keys m then keys m else keys m ++ [k] := by
  induction m with
  | nil => simp [set, keys]
  | cons e m ih =>
    obtain ⟨k0, v0⟩ := e
    by_cases h : k0 = k
    · subst h
      simp [set, keys]
    · have h' : ¬ k = k0 := fun c => h c.symm
      have ih' := ih
      simp only [keys] at ih'
      by_cases hm : k ∈ List.map Prod.fst m
      · simp [set, keys, h, h', hm, ih']
      · simp [set, keys, h, h', hm, ih']

theorem mem_keys_set (m : Table) (k : String) (v : Nat) (k' : String) :
    k' ∈ keys (set m k v) ↔ k' = k ∨ k' ∈ keys m := by
  rw [keys_set]
  by_cases h : k ∈ keys m
  · simp only [h, if_true]
    constructor
    · exact Or.inr
    · rintro (rfl | h')
      · exact h
      · exact h'
  · simp only [h, if_false, List.mem_append, List.mem_singleton]
    tauto

theorem mem_set {m : Table} {k : String} {v : Nat} {e : String × Nat} (h : e ∈ set m k v) :
    e = (k, v) ∨ e ∈ m := by
  induction m with
  | nil => simpa [set] using h
  | cons e0 m ih =>
    obtain ⟨k0, v0⟩ := e0
    by_cases h0 : k0 = k
    · subst h0
      simp only [set, if_true, List.mem_cons] at h
      rcases h with h | h
      · exact Or.inl h
      · exact Or.inr (List.mem_cons_of_mem _ h)
    · simp only [set, h0, if_false, List.mem_cons] at h
      rcases h with h | h
      · exact Or.inr (by rw [h]; exact List.mem_cons_self _ _)
      · rcases ih h with h | h
        · exact Or.inl h
        · exact Or.inr (List.mem_cons_of_mem _ h)

theorem WF_nil : WF [] := by
  simp [WF, keys]

theorem WF_set {m : Table} {k : String} {v : Nat} (hm : WF m) (hv : v < U64) :
    WF (set m k v) := by
  refine ⟨?_, ?_⟩
  · rw [keys_set]
    by_cases h : k ∈ keys m
    · simpa [h] using hm.1
    · simp only [h, if_false]
      rw [List.nodup_append]
      refine ⟨hm.1, List.nodup_singleton k, ?_⟩
      intro x hx hx'
      rw [List.mem_singleton] at hx'
      subst hx'
      exact h hx
  · intro e he
    rcases mem_set he with rfl | h
    · exact hv
    · exact hm.2 e h

theorem lookup_of_mem {m : Table} (hm : (keys m).Nodup) {e : String × Nat} (he : e ∈ m) :
    lookup m e.1 = some e.2 := by
  induction m with
  | nil => cases he
  | cons e0 m ih =>
    obtain ⟨k0, v0⟩ := e0
    simp only [keys, List.map_cons, List.nodup_cons] at hm
    rcases List.mem_cons.1 he with rfl | h
    · simp [lookup]
    · have hne : ¬ k0 = e.1 := by
        intro c
        apply hm.1
        rw [c]
        exact List.mem_map_of_mem Prod.fst h
      simp only [lookup, hne, if_false]
      exact ih hm.2 h

theorem mem_of_lookup {m : Table} {k : String} {v : Nat} (h : lookup m k = some v) :
    (k, v) ∈ m := by
  induction m with
  | nil => simp [lookup] at h
  | cons e0 m ih =>
    obtain ⟨k0, v0⟩ := e0
    by_cases h0 : k0 = k
    · subst h0
      simp only [lookup, if_true, Option.some.injEq] at h
      subst h
      exact List.mem_cons_self _ _
    · simp only [lookup, h0, if_false] at h
      exact List.mem_cons_of_mem _ (ih h)

theorem get_lt_of_WF {m : Table} (hm : WF m) (k : String) : get m k < U64 := by
  unfold get
  cases h : lookup m k with
  | none => simp [U64]
  | some v => exact hm.2 _ (mem_of_lookup h)

end Table

/-! ## The snapshot and the union of keys -/

theorem NodeSet.mem_add (s : NodeSet) (node k : String) :
    k ∈ NodeSet.add s node ↔ k ∈ s ∨ k = node := by
  unfold NodeSet.add
  by_cases h : node ∈ s
  · simp only [h, if_true]
    constructor
    · exact Or.inl
    · rintro (h' | rfl)
      · exact h'
      · exact h
  · simp [h]

theorem NodeSet.mem_foldl_add (l : List String) (s : NodeSet) (k : String) :
    k ∈ l.foldl NodeSet.add s ↔ k ∈ s ∨ k ∈ l := by
  induction l generalizing s with
  | nil => simp
  | cons x l ih =>
    rw [List.foldl_cons, ih, NodeSet.mem_add]
    simp only [List.mem_cons]
    tauto

namespace VectorClock

theorem foldl_set_eq_append (m acc : Table) (h : (Table.keys (acc ++ m)).Nodup) :
    m.foldl (fun t e => Table.set t e.1 e.2) acc = acc ++ m := by
  induction m generalizing acc with
  | nil => simp
  | cons e m ih =>
    have hk : e.1 ∉ Table.keys acc := by
      intro c
      simp only [Table.keys, List.map_append, List.map_cons] at h
      rw [List.nodup_append] at h
      exact h.2.2 c (List.mem_cons_self _ _)
    rw [List.foldl_cons, Table.set_of_not_mem _ hk, ih]
    · simp
    · simpa using h

/-- On a genuine map the snapshot has the entries of the original. -/
theorem cloneTimestamps_eq (vc : VectorClock) (h : vc.timestamps.WF) :
    cloneTimestamps vc = vc.timestamps := by
  unfold cloneTimestamps
  rw [foldl_set_eq_append]
  · simp
  · simpa using h.1

theorem mem_allNodes (a b : Table) (k : String) :
    k ∈ allNodes a b ↔ k ∈ Table.keys a ∨ k ∈ Table.keys b := by
  unfold allNodes
  rw [NodeSet.mem_foldl_add, NodeSet.mem_foldl_add]
  simp

/-! ## The flags of the comparison loop -/

theorem foldl_compareStep_allLessOrEqual (a b : Table) (l : List String) (f : Flags) :
    (l.foldl (compareStep a b) f).allLessOrEqual = true ↔
      f.allLessOrEqual = true ∧ ∀ k ∈ l, Table.get a k ≤ Table.get b k := by
  induction l generalizing f with
  | nil => simp
  | cons x l ih =>
    rw [List.foldl_cons, ih]
    simp only [List.mem_cons, forall_eq_or_imp]
    have hx : (compareStep a b f x).allLessOrEqual = true ↔
        f.allLessOrEqual = true ∧ Table.get a x ≤ Table.get b x := by
      unfold compareStep
      by_cases h1 : Table.get a x < Table.get b x
      · have h2 : Table.get a x ≠ Table.get b x := Nat.ne_of_lt h1
        simp [h1, h2, Nat.le_of_lt h1]
      · by_cases h2 : Table.get a x > Table.get b x
        · have h3 : Table.get a x ≠ Table.get b x := Nat.ne_of_gt h2
          simp [h1, h2, h3, Nat.not_le.2 h2]
        · have h3 : Table.get a x = Table.get b x := by omega
          simp [h3]
    rw [hx]
    tauto

theorem foldl_compareStep_allGreaterOrEqual (a b : Table) (l : List String) (f : Flags) :
    (l.foldl (compareStep a b) f).allGreaterOrEqual = true ↔
      f.allGreaterOrEqual = true ∧ ∀ k ∈ l, Table.get b k ≤ Table.get a k := by
  induction l generalizing f with
  | nil => simp
  | cons x l ih =>
    rw [List.foldl_cons, ih]
    simp only [List.mem_cons, forall_eq_or_imp]
    have hx : (compareStep a b f x).allGreaterOrEqual = true ↔
        f.allGreaterOrEqual = true ∧ Table.get b x ≤ Table.get a x := by
      unfold compareStep
      by_cases h1 : Table.get a x < Table.get b x
      · have h2 : Table.get a x ≠ Table.get b x := Nat.ne_of_lt h1
        simp [h1, h2, Nat.not_le.2 h1]
      · by_cases h2 : Table.get a x > Table.get b x
        · have h3 : Table.get a x ≠ Table.get b x := Nat.ne_of_gt h2
          simp [h1, h2, h3, Nat.le_of_lt h2]
        · have h3 : Table.get a x = Table.get b x := by omega
          simp [h3]
    rw [hx]
    tauto

theorem foldl_compareStep_foundDifference (a b : Table) (l : List String) (f : Flags) :
    (l.foldl (compareStep a b) f).foundDifference = true ↔
      f.foundDifference = true ∨ ∃ k ∈ l, Table.get a k ≠ Table.get b k := by
  induction l generalizing f with
  | nil => simp
  | cons x l ih =>
    rw [List.foldl_cons, ih]
    simp only [List.mem_cons, exists_eq_or_imp]
    have hx : (compareStep a b f x).foundDifference = true ↔
        f.foundDifference = true ∨ Table.get a x ≠ Table.get b x := by
      unfold compareStep
      by_cases h1 : Table.get a x < Table.get b x
      · have h2 : Table.get a x ≠ Table.get b x := Nat.ne_of_lt h1
        simp [h1, h2]
      · by_cases h2 : Table.get a x > Table.get b x
        · have h3 : Table.get a x ≠ Table.get b x := Nat.ne_of_gt h2
          simp [h1, h2, h3]
        · have h3 : Table.get a x = Table.get b x := by omega
          simp [h3]
    rw [hx]
    tauto

theorem compareFlags_allLessOrEqual (a b : Table) :
    (compareFlags a b).allLessOrEqual = true ↔
      ∀ k, k ∈ Table.keys a ∨ k ∈ Table.keys b → Table.get a k ≤ Table.get b k := by
  unfold compareFlags
  rw [foldl_compareStep_allLessOrEqual]
  simp only [true_and, mem_allNodes]

theorem compareFlags_allGreaterOrEqual (a b : Table) :
    (compareFlags a b).allGreaterOrEqual = true ↔
      ∀ k, k ∈ Table.keys a ∨ k ∈ Table.keys b → Table.get b k ≤ Table.get a k := by
  unfold compareFlags
  rw [foldl_compareStep_allGreaterOrEqual]
  simp only [true_and, mem_allNodes]

theorem compareFlags_foundDifference (a b : Table) :
    (compareFlags a b).foundDifference = true ↔
      ∃ k, (k ∈ Table.keys a ∨ k ∈ Table.keys b) ∧ Table.get a k ≠ Table.get b k := by
  unfold compareFlags
  rw [foldl_compareStep_foundDifference]
  simp only [Bool.false_eq_true, false_or, mem_allNodes]

/-- The result of `Compare` on two genuine maps, read off the three flags. -/
theorem Compare_eq (a b : VectorClock) (ha : a.timestamps.WF) (hb : b.timestamps.WF) :
    Compare a b =
      if !(compareFlags a.timestamps b.timestamps).foundDifference then Relation.Equal
      else if (compareFlags a.timestamps b.timestamps).allLessOrEqual then Relation.Before
      else if (compareFlags a.timestamps b.timestamps).allGreaterOrEqual then Relation.After
      else Relation.Concurrent := by
  unfold Compare
  rw [cloneTimestamps_eq a ha, cloneTimestamps_eq b hb]

end VectorClock

/-! ## The four results of `Compare` -/

namespace VectorClock

theorem Compare_eq_Equal_iff (a b : VectorClock) (ha : a.timestamps.WF) (hb : b.timestamps.WF) :
    Compare a b = Relation.Equal ↔ ¬ Differ a.timestamps b.timestamps := by
  rw [Compare_eq a b ha hb]
  unfold Differ
  rw [← compareFlags_foundDifference]
  cases (compareFlags a.timestamps b.timestamps).foundDifference <;>
    cases (compareFlags a.timestamps b.timestamps).allLessOrEqual <;>
    cases (compareFlags a.timestamps b.timestamps).allGreaterOrEqual <;> simp

theorem Compare_eq_Before_iff (a b : VectorClock) (ha : a.timestamps.WF) (hb : b.timestamps.WF) :
    Compare a b = Relation.Before ↔
      Differ a.timestamps b.timestamps ∧ AllLe a.timestamps b.timestamps := by
  rw [Compare_eq a b ha hb]
  unfold Differ AllLe
  rw [← compareFlags_foundDifference, ← compareFlags_allLessOrEqual]
  cases (compareFlags a.timestamps b.timestamps).foundDifference <;>
    cases (compareFlags a.timestamps b.timestamps).allLessOrEqual <;>
    cases (compareFlags a.timestamps b.timestamps).allGreaterOrEqual <;> simp

theorem Compare_eq_After_iff (a b : VectorClock) (ha : a.timestamps.WF) (hb : b.timestamps.WF) :
    Compare a b = Relation.After ↔
      Differ a.timestamps b.timestamps ∧ ¬ AllLe a.timestamps b.timestamps ∧
        AllLe b.timestamps a.timestamps := by
  have hG : AllLe b.timestamps a.timestamps ↔
      (compareFlags a.timestamps b.timestamps).allGreaterOrEqual = true := by
    rw [compareFlags_allGreaterOrEqual]
    unfold AllLe
    constructor
    · intro h k hk
      exact h k hk.symm
    · intro h k hk
      exact h k hk.symm
  rw [Compare_eq a b ha hb, hG]
  unfold Differ AllLe
  rw [← compareFlags_foundDifference, ← compareFlags_allLessOrEqual]
  cases (compareFlags a.timestamps b.timestamps).foundDifference <;>
    cases (compareFlags a.timestamps b.timestamps).allLessOrEqual <;>
    cases (compareFlags a.timestamps b.timestamps).allGreaterOrEqual <;> simp

theorem Compare_eq_Concurrent_iff (a b : VectorClock) (ha : a.timestamps.WF)
    (hb : b.timestamps.WF) :
    Compare a b = Relation.Concurrent ↔
      ¬ AllLe a.timestamps b.timestamps ∧ ¬ AllLe b.timestamps a.timestamps := by
  have hG : AllLe b.timestamps a.timestamps ↔
      (compareFlags a.timestamps b.timestamps).allGreaterOrEqual = true := by
    rw [compareFlags_allGreaterOrEqual]
    unfold AllLe
    constructor
    · intro h k hk
      exact h k hk.symm
    · intro h k hk
      exact h k hk.symm
  have hD : (compareFlags a.timestamps b.timestamps).allLessOrEqual = false →
      (compareFlags a.timestamps b.timestamps).foundDifference = true := by
    intro hl
    rw [compareFlags_foundDifference]
    by_contra hn
    have : (compareFlags a.timestamps b.timestamps).allLessOrEqual = true := by
      rw [compareFlags_allLessOrEqual]
      intro k hk
      by_contra hlt
      exact hn ⟨k, hk, fun e => hlt (Nat.le_of_eq e)⟩
    rw [hl] at this
    exact Bool.noConfusion this
  rw [Compare_eq a b ha hb, hG]
  unfold AllLe
  rw [← compareFlags_allLessOrEqual]
  revert hD
  cases (compareFlags a.timestamps b.timestamps).foundDifference <;>
    cases (compareFlags a.timestamps b.timestamps).allLessOrEqual <;>
    cases (compareFlags a.timestamps b.timestamps).allGreaterOrEqual <;> simp

theorem not_AllLe_iff (a b : Table) :
    ¬ AllLe a b ↔ ∃ k, Table.get b k < Table.get a k := by
  unfold AllLe
  constructor
  · intro h
    by_contra hn
    apply h
    intro k _
    by_contra hk
    exact hn ⟨k, Nat.not_le.1 hk⟩
  · rintro ⟨k, hk⟩ h
    have hmem : k ∈ Table.keys a := Table.mem_keys_of_get_pos (Nat.lt_of_le_of_lt (Nat.zero_le _) hk)
    exact Nat.not_le.2 hk (h k (Or.inl hmem))

theorem not_Differ_iff (a b : Table) :
    ¬ Differ a b ↔ ∀ k, Table.get a k = Table.get b k := by
  unfold Differ
  constructor
  · intro h k
    by_cases hk : k ∈ Table.keys a ∨ k ∈ Table.keys b
    · by_contra hne
      exact h ⟨k, hk, hne⟩
    · rw [not_or] at hk
      rw [Table.get_eq_zero_of_not_mem hk.1, Table.get_eq_zero_of_not_mem hk.2]
  · rintro h ⟨k, _, hne⟩
    exact hne (h k)

end VectorClock

/-! ## The loop of `Merge` -/

namespace VectorClock

theorem lookup_mergeStep (m : Table) (e : String × Nat) (k : String) :
    Table.lookup (mergeStep m e) k =
      if e.1 = k then some (max (Table.get m e.1) e.2) else Table.lookup m k := by
  unfold mergeStep Table.get
  cases h : Table.lookup m e.1 with
  | none =>
    simp only [Table.lookup_set]
    by_cases hk : e.1 = k <;> simp [hk]
  | some c =>
    by_cases hc : e.2 > c
    · simp only [hc, if_true, Table.lookup_set]
      by_cases hk : e.1 = k
      · simp [hk, Nat.max_eq_right (Nat.le_of_lt hc)]
      · simp [hk]
    · simp only [hc, if_false]
      by_cases hk : e.1 = k
      · subst hk
        simp [h, Nat.max_eq_left (Nat.not_lt.1 hc)]
      · simp [hk]

theorem mergeStep_eq_self {m : Table} {e : String × Nat} {c : Nat}
    (h : Table.lookup m e.1 = some c) (hc : e.2 ≤ c) : mergeStep m e = m := by
  unfold mergeStep
  rw [h]
  simp [Nat.not_lt.2 hc]

theorem WF_mergeStep {m : Table} {e : String × Nat} (hm : m.WF) (he : e.2 < U64) :
    (mergeStep m e).WF := by
  unfold mergeStep
  cases h : Table.lookup m e.1 with
  | none => exact Table.WF_set hm he
  | some c =>
    by_cases hc : e.2 > c
    · simpa [hc] using Table.WF_set hm he
    · simpa [hc] using hm

theorem WF_foldl_mergeStep (b m : Table) (hm : m.WF) (hb : ∀ e ∈ b, e.2 < U64) :
    (b.foldl mergeStep m).WF := by
  induction b generalizing m with
  | nil => exact hm
  | cons e b ih =>
    rw [List.foldl_cons]
    exact ih _ (WF_mergeStep hm (hb e (List.mem_cons_self _ _)))
      (fun x hx => hb x (List.mem_cons_of_mem _ hx))

/-- What the loop of `Merge` leaves under each key, for a source with distinct keys. -/
theorem lookup_foldl_mergeStep (b m : Table) (hb : (Table.keys b).Nodup) (k : String) :
    Table.lookup (b.foldl mergeStep m) k =
      match Table.lookup b k with
      | none => Table.lookup m k
      | some ts => some (max (Table.get m k) ts) := by
  induction b generalizing m with
  | nil => simp [Table.lookup]
  | cons e b ih =>
    obtain ⟨k0, ts⟩ := e
    simp only [Table.keys, List.map_cons, List.nodup_cons] at hb
    rw [List.foldl_cons, ih _ hb.2]
    by_cases hk : k0 = k
    · subst hk
      have hnone : Table.lookup b k0 = none := (Table.lookup_eq_none_iff b k0).2 hb.1
      simp [Table.lookup, hnone, lookup_mergeStep]
    · have hget : Table.get (mergeStep m (k0, ts)) k = Table.get m k := by
        unfold Table.get
        rw [lookup_mergeStep]
        simp [hk]
      simp only [Table.lookup, hk, if_false, hget]
      cases Table.lookup b k with
      | none => simp [lookup_mergeStep, hk]
      | some t => rfl

theorem foldl_mergeStep_eq_self (b m : Table)
    (h : ∀ e ∈ b, ∃ c, Table.lookup m e.1 = some c ∧ e.2 ≤ c) : b.foldl mergeStep m = m := by
  induction b with
  | nil => rfl
  | cons e b ih =>
    obtain ⟨c, hc, hle⟩ := h e (List.mem_cons_self _ _)
    rw [List.foldl_cons, mergeStep_eq_self hc hle]
    exact ih (fun x hx => h x (List.mem_cons_of_mem _ hx))

/-- The table of the receiver after `Merge`, key by key. -/
theorem lookup_Merge (a b : VectorClock) (hb : b.timestamps.WF) (k : String) :
    Table.lookup (Merge a b).timestamps k =
      match Table.lookup b.timestamps k with
      | none => Table.lookup a.timestamps k
      | some ts => some (max (Table.get a.timestamps k) ts) := by
  unfold Merge
  simp only [cloneTimestamps_eq b hb]
  exact lookup_foldl_mergeStep _ _ hb.1 k

theorem get_Merge (a b : VectorClock) (hb : b.timestamps.WF) (k : String) :
    Table.get (Merge a b).timestamps k =
      max (Table.get a.timestamps k) (Table.get b.timestamps k) := by
  have h := lookup_Merge a b hb k
  unfold Table.get
  rw [h]
  cases hl : Table.lookup b.timestamps k with
  | none => simp
  | some ts => simp [Table.get]

theorem mem_keys_Merge (a b : VectorClock) (hb : b.timestamps.WF) (k : String) :
    k ∈ Table.keys (Merge a b).timestamps ↔
      k ∈ Table.keys a.timestamps ∨ k ∈ Table.keys b.timestamps := by
  rw [← Table.lookup_isSome_iff, ← Table.lookup_isSome_iff, ← Table.lookup_isSome_iff,
    lookup_Merge a b hb k]
  cases hl : Table.lookup b.timestamps k with
  | none => simp
  | some ts => simp

theorem WF_Merge (a b : VectorClock) (ha : a.timestamps.WF) (hb : b.timestamps.WF) :
    (Merge a b).timestamps.WF := by
  unfold Merge
  simp only [cloneTimestamps_eq b hb]
  exact WF_foldl_mergeStep _ _ ha hb.2

theorem nodeID_Merge (a b : VectorClock) : (Merge a b).nodeID = a.nodeID := rfl

/-- Merging a clock whose counters the receiver already dominates changes nothing. -/
theorem Merge_eq_self (a b : VectorClock) (hb : b.timestamps.WF)
    (h : ∀ k, k ∈ Table.keys b.timestamps →
      k ∈ Table.keys a.timestamps ∧ Table.get b.timestamps k ≤ Table.get a.timestamps k) :
    Merge a b = a := by
  unfold Merge
  simp only [cloneTimestamps_eq b hb]
  have : b.timestamps.foldl mergeStep a.timestamps = a.timestamps := by
    apply foldl_mergeStep_eq_self
    intro e he
    have hk : e.1 ∈ Table.keys b.timestamps := List.mem_map_of_mem Prod.fst he
    obtain ⟨hka, hle⟩ := h e.1 hk
    obtain ⟨c, hc⟩ := (Table.lookup_isSome_iff _ _).2 hka
    refine ⟨c, hc, ?_⟩
    rw [Table.get_of_lookup (Table.lookup_of_mem hb.1 he), Table.get_of_lookup hc] at hle
    exact hle
  rw [this]

theorem Merge_idem (a b : VectorClock) (hb : b.timestamps.WF) :
    Merge (Merge a b) b = Merge a b := by
  apply Merge_eq_self _ _ hb
  intro k hk
  refine ⟨(mem_keys_Merge a b hb k).2 (Or.inr hk), ?_⟩
  rw [get_Merge a b hb]
  exact Nat.le_max_right _ _

theorem Merge_self (a : VectorClock) (ha : a.timestamps.WF) : Merge a a = a :=
  Merge_eq_self a a ha (fun _ hk => ⟨hk, Nat.le_refl _⟩)

/-! ## `Increment` -/

theorem get_Increment (a : VectorClock) (k : String) :
    Table.get (Increment a).timestamps k =
      if a.nodeID = k then (Table.get a.timestamps a.nodeID + 1) % U64
      else Table.get a.timestamps k := by
  unfold Increment
  simp only [Table.get_set]

theorem WF_Increment (a : VectorClock) (ha : a.timestamps.WF) : (Increment a).timestamps.WF := by
  unfold Increment
  exact Table.WF_set ha (Nat.mod_lt _ (by simp [U64]))

end VectorClock

/-! ## Tables with the same contents -/

namespace Table

theorem mem_iff_lookup {m : Table} (hm : (keys m).Nodup) (e : String × Nat) :
    e ∈ m ↔ lookup m e.1 = some e.2 :=
  ⟨fun h => lookup_of_mem hm h, fun h => mem_of_lookup h⟩

theorem perm_of_lookup_eq {m n : Table} (hm : (keys m).Nodup) (hn : (keys n).Nodup)
    (h : ∀ k, lookup m k = lookup n k) : m.Perm n := by
  rw [List.perm_ext_iff_of_nodup (List.Nodup.of_map _ hm) (List.Nodup.of_map _ hn)]
  intro e
  rw [mem_iff_lookup hm, mem_iff_lookup hn, h]

end Table

/-! ## A receive event: `Merge` then `Increment` -/

namespace VectorClock

theorem Compare_Increment_Merge (a b : VectorClock)
    (ha : a.timestamps.WF) (hb : b.timestamps.WF)
    (hamax : Table.get a.timestamps a.nodeID ≠ U64 - 1)
    (hbmax : Table.get b.timestamps a.nodeID ≠ U64 - 1) :
    Compare (Increment (Merge a b)) b = Relation.After := by
  have hwf : (Increment (Merge a b)).timestamps.WF := WF_Increment _ (WF_Merge a b ha hb)
  have hla := Table.get_lt_of_WF ha a.nodeID
  have hlb := Table.get_lt_of_WF hb a.nodeID
  have hU : U64 = 18446744073709551616 := by simp [U64]
  have hget : ∀ k, Table.get (Increment (Merge a b)).timestamps k =
      if a.nodeID = k then
        max (Table.get a.timestamps a.nodeID) (Table.get b.timestamps a.nodeID) + 1
      else max (Table.get a.timestamps k) (Table.get b.timestamps k) := by
    intro k
    rw [get_Increment, nodeID_Merge, get_Merge a b hb, get_Merge a b hb]
    by_cases hk : a.nodeID = k
    · simp only [hk, if_true]
      subst hk
      apply Nat.mod_eq_of_lt
      omega
    · simp only [hk, if_false]
  have hself : Table.get b.timestamps a.nodeID <
      Table.get (Increment (Merge a b)).timestamps a.nodeID := by
    rw [hget]
    simp only [if_true]
    omega
  have hge : ∀ k, Table.get b.timestamps k ≤ Table.get (Increment (Merge a b)).timestamps k := by
    intro k
    by_cases hk : a.nodeID = k
    · subst hk
      exact Nat.le_of_lt hself
    · rw [hget]
      simp only [hk, if_false]
      exact Nat.le_max_right _ _
  rw [Compare_eq_After_iff _ _ hwf hb]
  have hmem : a.nodeID ∈ Table.keys (Increment (Merge a b)).timestamps :=
    Table.mem_keys_of_get_pos (Nat.lt_of_le_of_lt (Nat.zero_le _) hself)
  refine ⟨⟨a.nodeID, Or.inl hmem, Nat.ne_of_gt hself⟩, ?_, fun k _ => hge k⟩
  rw [not_AllLe_iff]
  exact ⟨a.nodeID, hself⟩

end VectorClock

/-! ## `ToMap`, `FromMap` and the comparison over all keys -/

namespace VectorClock

theorem ToMap_eq (vc : VectorClock) (h : vc.timestamps.WF) : ToMap vc = vc.timestamps :=
  cloneTimestamps_eq vc h

theorem timestamps_FromMap (vc : VectorClock) (data : Table) (h : (Table.keys data).Nodup) :
    (FromMap vc data).timestamps = data := by
  unfold FromMap
  show data.foldl (fun m e => Table.set m e.1 e.2) [] = data
  rw [foldl_set_eq_append]
  · simp
  · simpa using h

theorem lookup_Increment_ne (vc : VectorClock) {k : String} (hk : k ≠ vc.nodeID) :
    Table.lookup (Increment vc).timestamps k = Table.lookup vc.timestamps k := by
  have hne : ¬ vc.nodeID = k := fun c => hk c.symm
  unfold Increment
  simp only [Table.lookup_set, hne, if_false]

theorem mem_keys_Increment (vc : VectorClock) (k : String) :
    k ∈ Table.keys (Increment vc).timestamps ↔ k = vc.nodeID ∨ k ∈ Table.keys vc.timestamps := by
  unfold Increment
  exact Table.mem_keys_set _ _ _ _

theorem AllLe_iff (a b : Table) : AllLe a b ↔ ∀ k, Table.get a k ≤ Table.get b k := by
  unfold AllLe
  constructor
  · intro h k
    by_cases hk : k ∈ Table.keys a
    · exact h k (Or.inl hk)
    · rw [Table.get_eq_zero_of_not_mem hk]
      exact Nat.zero_le _
  · intro h k _
    exact h k

theorem Differ_iff (a b : Table) : Differ a b ↔ ∃ k, Table.get a k ≠ Table.get b k := by
  constructor
  · intro h
    by_contra hn
    exact (not_Differ_iff a b).2 (fun k => by_contra (fun hk => hn ⟨k, hk⟩)) h
  · rintro ⟨k, hk⟩
    by_contra hn
    exact hk ((not_Differ_iff a b).1 hn k)

/-- After `Merge` the receiver is `After` or `Equal` to the argument. -/
theorem Compare_Merge_left (a b : VectorClock) (ha : a.timestamps.WF) (hb : b.timestamps.WF) :
    Compare (Merge a b) b = Relation.After ∨ Compare (Merge a b) b = Relation.Equal := by
  have hm := WF_Merge a b ha hb
  have hle : AllLe b.timestamps (Merge a b).timestamps := by
    rw [AllLe_iff]
    intro k
    rw [get_Merge a b hb]
    exact Nat.le_max_right _ _
  by_cases hd : Differ (Merge a b).timestamps b.timestamps
  · left
    rw [Compare_eq_After_iff _ _ hm hb]
    refine ⟨hd, ?_, hle⟩
    intro hge
    rw [AllLe_iff] at hle hge
    rw [Differ_iff] at hd
    obtain ⟨k, hk⟩ := hd
    exact hk (Nat.le_antisymm (hge k) (hle k))
  · right
    rw [Compare_eq_Equal_iff _ _ hm hb]
    exact hd

/-- After `Merge` the argument is `Before` or `Equal` to the receiver. -/
theorem Compare_Merge_right (a b : VectorClock) (ha : a.timestamps.WF) (hb : b.timestamps.WF) :
    Compare b (Merge a b) = Relation.Before ∨ Compare b (Merge a b) = Relation.Equal := by
  have hm := WF_Merge a b ha hb
  have hle : AllLe b.timestamps (Merge a b).timestamps := by
    rw [AllLe_iff]
    intro k
    rw [get_Merge a b hb]
    exact Nat.le_max_right _ _
  by_cases hd : Differ b.timestamps (Merge a b).timestamps
  · left
    rw [Compare_eq_Before_iff _ _ hb hm]
    exact ⟨hd, hle⟩
  · right
    rw [Compare_eq_Equal_iff _ _ hb hm]
    exact hd

end VectorClock

/-! ## The contract of `Compare` -/

/-- C1: on two vector-clock tables, with an absent key read as 0, `a.Compare(b)`
returns `Before` exactly when `a[k] ≤ b[k]` for every key `k` of the union of the
two key sets and `a[k] < b[k]` for at least one such key. -/
theorem compare_before_iff (a b : VectorClock)
    (ha : a.timestamps.WF) (hb : b.timestamps.WF) :
    a.Compare b = Relation.Before ↔
      (∀ k, k ∈ Table.keys a.timestamps ∨ k ∈ Table.keys b.timestamps →
          Table.get a.timestamps k ≤ Table.get b.timestamps k) ∧
      (∃ k, (k ∈ Table.keys a.timestamps ∨ k ∈ Table.keys b.timestamps) ∧
          Table.get a.timestamps k < Table.get b.timestamps k) := by
  rw [VectorClock.Compare_eq_Before_iff a b ha hb]
  unfold VectorClock.Differ VectorClock.AllLe
  constructor
  · rintro ⟨⟨k, hk, hne⟩, hle⟩
    exact ⟨hle, k, hk, Nat.lt_of_le_of_ne (hle k hk) hne⟩
  · rintro ⟨hle, k, hk, hlt⟩
    exact ⟨⟨k, hk, Nat.ne_of_lt hlt⟩, hle⟩

/-- The equivalence of C1 at `{A:1}` against `{A:1, B:1}`. -/
theorem compare_before_iff_witness :
    Table.WF [("A", 1)] ∧ Table.WF [("A", 1), ("B", 1)] ∧
    ((VectorClock.mk "A" [("A", 1)]).Compare (VectorClock.mk "B" [("A", 1), ("B", 1)])
        = Relation.Before ↔
      (∀ k, k ∈ Table.keys [("A", 1)] ∨ k ∈ Table.keys [("A", 1), ("B", 1)] →
          Table.get [("A", 1)] k ≤ Table.get [("A", 1), ("B", 1)] k) ∧
      (∃ k, (k ∈ Table.keys [("A", 1)] ∨ k ∈ Table.keys [("A", 1), ("B", 1)]) ∧
          Table.get [("A", 1)] k < Table.get [("A", 1), ("B", 1)] k)) :=
  ⟨by decide, by decide,
    compare_before_iff (VectorClock.mk "A" [("A", 1)])
      (VectorClock.mk "B" [("A", 1), ("B", 1)]) (by decide) (by decide)⟩

/-- C2: on two vector-clock tables, with an absent key read as 0, `a.Compare(b)`
returns `After` exactly when `a[k] ≥ b[k]` for every key `k` of the union of the
two key sets and `a[k] > b[k]` for at least one such key. -/
theorem compare_after_iff (a b : VectorClock)
    (ha : a.timestamps.WF) (hb : b.timestamps.WF) :
    a.Compare b = Relation.After ↔
      (∀ k, k ∈ Table.keys a.timestamps ∨ k ∈ Table.keys b.timestamps →
          Table.get a.timestamps k ≥ Table.get b.timestamps k) ∧
      (∃ k, (k ∈ Table.keys a.timestamps ∨ k ∈ Table.keys b.timestamps) ∧
          Table.get a.timestamps k > Table.get b.timestamps k) := by
  rw [VectorClock.Compare_eq_After_iff a b ha hb]
  unfold VectorClock.Differ VectorClock.AllLe
  constructor
  · rintro ⟨⟨k, hk, hne⟩, _, hge⟩
    exact ⟨fun k hk => hge k hk.symm, k, hk,
      Nat.lt_of_le_of_ne (hge k hk.symm) (fun e => hne e.symm)⟩
  · rintro ⟨hge, k, hk, hgt⟩
    exact ⟨⟨k, hk, Nat.ne_of_gt hgt⟩, fun hle => Nat.not_le.2 hgt (hle k hk),
      fun k hk => hge k hk.symm⟩

/-- The equivalence of C2 at `{A:2, B:1}` against `{B:1}`. -/
theorem compare_after_iff_witness :
    Table.WF [("A", 2), ("B", 1)] ∧ Table.WF [("B", 1)] ∧
    ((VectorClock.mk "A" [("A", 2), ("B", 1)]).Compare (VectorClock.mk "B" [("B", 1)])
        = Relation.After ↔
      (∀ k, k ∈ Table.keys [("A", 2), ("B", 1)] ∨ k ∈ Table.keys [("B", 1)] →
          Table.get [("A", 2), ("B", 1)] k ≥ Table.get [("B", 1)] k) ∧
      (∃ k, (k ∈ Table.keys [("A", 2), ("B", 1)] ∨ k ∈ Table.keys [("B", 1)]) ∧
          Table.get [("A", 2), ("B", 1)] k > Table.get [("B", 1)] k)) :=
  ⟨by decide, by decide,
    compare_after_iff (VectorClock.mk "A" [("A", 2), ("B", 1)])
      (VectorClock.mk "B" [("B", 1)]) (by decide) (by decide)⟩

/-- C3: on two vector-clock tables, with an absent key read as 0, `a.Compare(b)`
returns `Concurrent` exactly when some key `k1` has `a[k1] > b[k1]` and another key
`k2` has `a[k2] < b[k2]`, and exactly when the result is none of `Equal`, `Before`
and `After`. -/
theorem compare_concurrent_iff (a b : VectorClock)
    (ha : a.timestamps.WF) (hb : b.timestamps.WF) :
    (a.Compare b = Relation.Concurrent ↔
      ∃ k1 k2, k1 ≠ k2 ∧ Table.get a.timestamps k1 > Table.get b.timestamps k1 ∧
        Table.get a.timestamps k2 < Table.get b.timestamps k2) ∧
    (a.Compare b = Relation.Concurrent ↔
      a.Compare b ≠ Relation.Equal ∧ a.Compare b ≠ Relation.Before ∧
        a.Compare b ≠ Relation.After) := by
  refine ⟨?_, ?_⟩
  · rw [VectorClock.Compare_eq_Concurrent_iff a b ha hb, VectorClock.not_AllLe_iff,
      VectorClock.not_AllLe_iff]
    constructor
    · rintro ⟨⟨k1, h1⟩, ⟨k2, h2⟩⟩
      refine ⟨k1, k2, ?_, h1, h2⟩
      rintro rfl
      exact Nat.lt_asymm h1 h2
    · rintro ⟨k1, k2, _, h1, h2⟩
      exact ⟨⟨k1, h1⟩, ⟨k2, h2⟩⟩
  · cases a.Compare b <;> simp

/-- The equivalences of C3 at `{A:1}` against `{B:1}`. -/
theorem compare_concurrent_iff_witness :
    Table.WF [("A", 1)] ∧ Table.WF [("B", 1)] ∧
    (((VectorClock.mk "A" [("A", 1)]).Compare (VectorClock.mk "B" [("B", 1)])
        = Relation.Concurrent ↔
      ∃ k1 k2, k1 ≠ k2 ∧ Table.get [("A", 1)] k1 > Table.get [("B", 1)] k1 ∧
        Table.get [("A", 1)] k2 < Table.get [("B", 1)] k2) ∧
    ((VectorClock.mk "A" [("A", 1)]).Compare (VectorClock.mk "B" [("B", 1)])
        = Relation.Concurrent ↔
      (VectorClock.mk "A" [("A", 1)]).Compare (VectorClock.mk "B" [("B", 1)])
          ≠ Relation.Equal ∧
        (VectorClock.mk "A" [("A", 1)]).Compare (VectorClock.mk "B" [("B", 1)])
          ≠ Relation.Before ∧
        (VectorClock.mk "A" [("A", 1)]).Compare (VectorClock.mk "B" [("B", 1)])
          ≠ Relation.After)) :=
  ⟨by decide, by decide,
    compare_concurrent_iff (VectorClock.mk "A" [("A", 1)])
      (VectorClock.mk "B" [("B", 1)]) (by decide) (by decide)⟩

theorem VectorClock.get_eq_zero_of_all_zero {m : Table} (hm : ∀ e ∈ m, e.2 = 0) (k : String) :
    Table.get m k = 0 := by
  unfold Table.get
  cases h : Table.lookup m k with
  | none => rfl
  | some v => exact hm _ (Table.mem_of_lookup h)

/-- C4 fails as stated in its last clause: the table `{A:0}` holds only zero-valued
entries and the clock `{B:1}` lacks the key "A", yet `Compare` returns `Before`, not
`Equal`, because the key "B" reads 0 against 1. -/
theorem compare_equal_iff_counterexample :
    Table.WF [("A", 0)] ∧ Table.WF [("B", 1)] ∧
    (∀ e ∈ (VectorClock.mk "A" [("A", 0)]).timestamps, e.2 = 0) ∧
    (∀ k, k ∈ Table.keys (VectorClock.mk "A" [("A", 0)]).timestamps →
      k ∉ Table.keys (VectorClock.mk "B" [("B", 1)]).timestamps) ∧
    (VectorClock.mk "A" [("A", 0)]).Compare (VectorClock.mk "B" [("B", 1)])
      = Relation.Before ∧
    (VectorClock.mk "A" [("A", 0)]).Compare (VectorClock.mk "B" [("B", 1)])
      ≠ Relation.Equal := by
  decide

/-- C4, amended: `a.Compare(b)` returns `Equal` exactly when `a[k] = b[k]` for every
key `k`, an absent key read as 0.  In particular `a.Compare(a)` is `Equal`, two empty
clocks compare `Equal`, and a clock whose table holds only zero-valued entries
compares `Equal` to a clock that lacks those keys exactly when that clock holds no
non-zero entry, as an empty clock does. -/
theorem compare_equal_iff (a b : VectorClock)
    (ha : a.timestamps.WF) (hb : b.timestamps.WF) :
    (a.Compare b = Relation.Equal ↔
      ∀ k, Table.get a.timestamps k = Table.get b.timestamps k) ∧
    a.Compare a = Relation.Equal ∧
    (∀ n1 n2, (NewVectorClock n1).Compare (NewVectorClock n2) = Relation.Equal) ∧
    ((∀ e ∈ a.timestamps, e.2 = 0) →
      (∀ k, k ∈ Table.keys a.timestamps → k ∉ Table.keys b.timestamps) →
      (a.Compare b = Relation.Equal ↔ ∀ e ∈ b.timestamps, e.2 = 0)) := by
  refine ⟨?_, ?_, ?_, ?_⟩
  · rw [VectorClock.Compare_eq_Equal_iff a b ha hb, VectorClock.not_Differ_iff]
  · rw [VectorClock.Compare_eq_Equal_iff a a ha ha, VectorClock.not_Differ_iff]
    intro k
    rfl
  · intro n1 n2
    rfl
  · intro hza _
    rw [VectorClock.Compare_eq_Equal_iff a b ha hb, VectorClock.not_Differ_iff]
    constructor
    · intro heq e he
      have h := heq e.1
      rw [VectorClock.get_eq_zero_of_all_zero hza,
        Table.get_of_lookup (Table.lookup_of_mem hb.1 he)] at h
      exact h.symm
    · intro hzb k
      rw [VectorClock.get_eq_zero_of_all_zero hza, VectorClock.get_eq_zero_of_all_zero hzb]

/-- The amended C4 at `{x:0, y:0}` against `{z:0}`, which lacks the keys "x" and "y"
and holds no non-zero entry: they compare `Equal`. -/
theorem compare_equal_iff_witness :
    Table.WF [("x", 0), ("y", 0)] ∧ Table.WF [("z", 0)] ∧
    (∀ e ∈ (VectorClock.mk "x" [("x", 0), ("y", 0)]).timestamps, e.2 = 0) ∧
    (∀ k, k ∈ Table.keys (VectorClock.mk "x" [("x", 0), ("y", 0)]).timestamps →
      k ∉ Table.keys (VectorClock.mk "z" [("z", 0)]).timestamps) ∧
    (VectorClock.mk "x" [("x", 0), ("y", 0)]).Compare (VectorClock.mk "z" [("z", 0)])
      = Relation.Equal :=
  ⟨by decide, by decide, by decide, by decide,
    ((compare_equal_iff (VectorClock.mk "x" [("x", 0), ("y", 0)])
      (VectorClock.mk "z" [("z", 0)]) (by decide) (by decide)).2.2.2
        (by decide) (by decide)).2 (by decide)⟩

/-- C5: `Compare` is anti-symmetric: `a.Compare(b)` is `Before` exactly when
`b.Compare(a)` is `After`. -/
theorem compare_antisymmetric (a b : VectorClock)
    (ha : a.timestamps.WF) (hb : b.timestamps.WF) :
    a.Compare b = Relation.Before ↔ b.Compare a = Relation.After := by
  rw [VectorClock.Compare_eq_Before_iff a b ha hb, VectorClock.Compare_eq_After_iff b a hb ha]
  have hsym : VectorClock.Differ a.timestamps b.timestamps ↔
      VectorClock.Differ b.timestamps a.timestamps := by
    unfold VectorClock.Differ
    constructor
    · rintro ⟨k, hk, hne⟩
      exact ⟨k, hk.symm, fun e => hne e.symm⟩
    · rintro ⟨k, hk, hne⟩
      exact ⟨k, hk.symm, fun e => hne e.symm⟩
  constructor
  · rintro ⟨hd, hle⟩
    refine ⟨hsym.1 hd, ?_, hle⟩
    intro hge
    obtain ⟨k, hk, hne⟩ := hd
    exact hne (Nat.le_antisymm (hle k hk) (hge k hk.symm))
  · rintro ⟨hd, _, hle⟩
    exact ⟨hsym.2 hd, hle⟩

/-- The equivalence of C5 at `{A:1}` and `{A:1, B:1}`, with both sides true. -/
theorem compare_antisymmetric_witness :
    Table.WF [("A", 1)] ∧ Table.WF [("A", 1), ("B", 1)] ∧
    ((VectorClock.mk "A" [("A", 1)]).Compare (VectorClock.mk "B" [("A", 1), ("B", 1)])
        = Relation.Before ↔
      (VectorClock.mk "B" [("A", 1), ("B", 1)]).Compare (VectorClock.mk "A" [("A", 1)])
        = Relation.After) ∧
    (VectorClock.mk "B" [("A", 1), ("B", 1)]).Compare (VectorClock.mk "A" [("A", 1)])
        = Relation.After :=
  ⟨by decide, by decide,
    compare_antisymmetric (VectorClock.mk "A" [("A", 1)])
      (VectorClock.mk "B" [("A", 1), ("B", 1)]) (by decide) (by decide),
    by decide⟩

/-! ## The contract of `Merge` -/

/-- C6: after `a.Merge(b)` the table of `a` has, under every key present in either
table before the call, the entry `max(a_old[k], b[k])` (absent read as 0); the key
set of `a` is exactly the union of the two key sets; and the table of `b` is
unchanged, also when `b` is the clock `a` itself. -/
theorem merge_pointwise_max (h : Heap) (p q : Nat)
    (ha : (h p).timestamps.WF) (hb : (h q).timestamps.WF) :
    (∀ k, k ∈ Table.keys (h p).timestamps ∨ k ∈ Table.keys (h q).timestamps →
      Table.lookup ((Heap.Merge h p q) p).timestamps k =
        some (max (Table.get (h p).timestamps k) (Table.get (h q).timestamps k))) ∧
    (∀ k, k ∈ Table.keys ((Heap.Merge h p q) p).timestamps ↔
      k ∈ Table.keys (h p).timestamps ∨ k ∈ Table.keys (h q).timestamps) ∧
    (Table.keys ((Heap.Merge h p q) p).timestamps).Nodup ∧
    ((Heap.Merge h p q) q).timestamps = (h q).timestamps := by
  have hp : (Heap.Merge h p q) p = VectorClock.Merge (h p) (h q) := by
    unfold Heap.Merge
    exact Function.update_same _ _ _
  refine ⟨?_, ?_, ?_, ?_⟩
  · intro k hk
    rw [hp]
    obtain ⟨v, hv⟩ := (Table.lookup_isSome_iff _ k).2
      ((VectorClock.mem_keys_Merge (h p) (h q) hb k).2 hk)
    rw [hv, ← VectorClock.get_Merge (h p) (h q) hb k, Table.get_of_lookup hv]
  · intro k
    rw [hp]
    exact VectorClock.mem_keys_Merge (h p) (h q) hb k
  · rw [hp]
    exact (VectorClock.WF_Merge (h p) (h q) ha hb).1
  · by_cases hpq : q = p
    · subst hpq
      rw [hp, VectorClock.Merge_self _ ha]
    · unfold Heap.Merge
      rw [Function.update_noteq hpq]

/-- The statement of C6 for `{A:3, B:1}` at address 0 merging `{B:2, C:0}` at address 1. -/
theorem merge_pointwise_max_witness :
    ((Heap.Merge (fun n => if n = 0 then VectorClock.mk "A" [("A", 3), ("B", 1)]
        else VectorClock.mk "B" [("B", 2), ("C", 0)]) 0 1) 0).timestamps
      = [("A", 3), ("B", 2), ("C", 0)] ∧
    ((Heap.Merge (fun n => if n = 0 then VectorClock.mk "A" [("A", 3), ("B", 1)]
        else VectorClock.mk "B" [("B", 2), ("C", 0)]) 0 1) 1).timestamps
      = [("B", 2), ("C", 0)] :=
  ⟨by decide,
    (merge_pointwise_max (fun n => if n = 0 then VectorClock.mk "A" [("A", 3), ("B", 1)]
        else VectorClock.mk "B" [("B", 2), ("C", 0)]) 0 1 (by decide) (by decide)).2.2.2⟩

/-- C7: `Merge` is idempotent: a second `a.Merge(b)` leaves the table of `a`, and
every other clock, exactly as the first `a.Merge(b)` left it. -/
theorem merge_idempotent (h : Heap) (p q : Nat)
    (ha : (h p).timestamps.WF) (hb : (h q).timestamps.WF) :
    Heap.Merge (Heap.Merge h p q) p q = Heap.Merge h p q ∧
    ((Heap.Merge (Heap.Merge h p q) p q) p).timestamps =
      ((Heap.Merge h p q) p).timestamps := by
  have hp : (Heap.Merge h p q) p = VectorClock.Merge (h p) (h q) := by
    unfold Heap.Merge
    exact Function.update_same _ _ _
  have hstep : VectorClock.Merge ((Heap.Merge h p q) p) ((Heap.Merge h p q) q) =
      (Heap.Merge h p q) p := by
    by_cases hpq : q = p
    · subst hpq
      rw [hp, VectorClock.Merge_self _ ha, VectorClock.Merge_self _ ha]
    · have hq : (Heap.Merge h p q) q = h q := by
        unfold Heap.Merge
        exact Function.update_noteq hpq _ _
      rw [hq, hp]
      exact VectorClock.Merge_idem (h p) (h q) hb
  have hheap : Heap.Merge (Heap.Merge h p q) p q = Heap.Merge h p q := by
    show Function.update (Heap.Merge h p q) p
      (VectorClock.Merge ((Heap.Merge h p q) p) ((Heap.Merge h p q) q)) = Heap.Merge h p q
    rw [hstep]
    exact Function.update_eq_self p (Heap.Merge h p q)
  exact ⟨hheap, by rw [hheap]⟩

/-- The statement of C7 for `{A:3, B:1}` at address 0 merging `{B:2, C:0}` at address 1. -/
theorem merge_idempotent_witness :
    ((Heap.Merge (Heap.Merge (fun n => if n = 0 then VectorClock.mk "A" [("A", 3), ("B", 1)]
        else VectorClock.mk "B" [("B", 2), ("C", 0)]) 0 1) 0 1) 0).timestamps =
      ((Heap.Merge (fun n => if n = 0 then VectorClock.mk "A" [("A", 3), ("B", 1)]
        else VectorClock.mk "B" [("B", 2), ("C", 0)]) 0 1) 0).timestamps ∧
    ((Heap.Merge (fun n => if n = 0 then VectorClock.mk "A" [("A", 3), ("B", 1)]
        else VectorClock.mk "B" [("B", 2), ("C", 0)]) 0 1) 0).timestamps
      = [("A", 3), ("B", 2), ("C", 0)] :=
  ⟨(merge_idempotent (fun n => if n = 0 then VectorClock.mk "A" [("A", 3), ("B", 1)]
        else VectorClock.mk "B" [("B", 2), ("C", 0)]) 0 1 (by decide) (by decide)).2,
    by decide⟩

/-- C8: `Merge` is commutative on the resulting table: merging `a` into a copy of `b`
and merging `b` into a copy of `a` give tables with the same key set and the same
value under every key, zero-valued entries included; the two tables hold the same
entries up to iteration order. -/
theorem merge_commutative (a b : VectorClock)
    (ha : a.timestamps.WF) (hb : b.timestamps.WF) :
    (∀ k, Table.lookup (VectorClock.Merge b a).timestamps k =
      Table.lookup (VectorClock.Merge a b).timestamps k) ∧
    (∀ k, k ∈ Table.keys (VectorClock.Merge b a).timestamps ↔
      k ∈ Table.keys (VectorClock.Merge a b).timestamps) ∧
    (VectorClock.Merge b a).timestamps.Perm (VectorClock.Merge a b).timestamps := by
  have hlk : ∀ k, Table.lookup (VectorClock.Merge b a).timestamps k =
      Table.lookup (VectorClock.Merge a b).timestamps k := by
    intro k
    rw [VectorClock.lookup_Merge b a ha, VectorClock.lookup_Merge a b hb]
    cases hla : Table.lookup a.timestamps k <;> cases hlb : Table.lookup b.timestamps k <;>
      simp [Table.get, hla, hlb, Nat.max_comm]
  refine ⟨hlk, ?_, ?_⟩
  · intro k
    rw [← Table.lookup_isSome_iff, ← Table.lookup_isSome_iff, hlk]
  · exact Table.perm_of_lookup_eq (VectorClock.WF_Merge b a hb ha).1
      (VectorClock.WF_Merge a b ha hb).1 hlk

/-- The statement of C8 at `{A:3, B:1, Z:0}` and `{B:2, C:0}`. -/
theorem merge_commutative_witness :
    (VectorClock.Merge (VectorClock.mk "B" [("B", 2), ("C", 0)])
        (VectorClock.mk "A" [("A", 3), ("B", 1), ("Z", 0)])).timestamps.Perm
      (VectorClock.Merge (VectorClock.mk "A" [("A", 3), ("B", 1), ("Z", 0)])
        (VectorClock.mk "B" [("B", 2), ("C", 0)])).timestamps ∧
    (VectorClock.Merge (VectorClock.mk "B" [("B", 2), ("C", 0)])
        (VectorClock.mk "A" [("A", 3), ("B", 1), ("Z", 0)])).timestamps
      = [("B", 2), ("C", 0), ("A", 3), ("Z", 0)] ∧
    (VectorClock.Merge (VectorClock.mk "A" [("A", 3), ("B", 1), ("Z", 0)])
        (VectorClock.mk "B" [("B", 2), ("C", 0)])).timestamps
      = [("A", 3), ("B", 2), ("Z", 0), ("C", 0)] :=
  ⟨(merge_commutative (VectorClock.mk "A" [("A", 3), ("B", 1), ("Z", 0)])
      (VectorClock.mk "B" [("B", 2), ("C", 0)]) (by decide) (by decide)).2.2,
    by decide, by decide⟩

/-! ## A receive event and disjoint clocks -/

/-- C9 fails as stated when the argument `b` is the clock `a` itself: for the clock
`{A:1}` of node "A", whose own counter is not the maximum, `a.Merge(a)` then
`a.Increment()` give `{A:2}` and `a.Compare(a)` returns `Equal`, not `After`. -/
theorem receive_event_after_counterexample :
    Table.WF [("A", 1)] ∧ Table.get [("A", 1)] "A" ≠ U64 - 1 ∧
    ((Heap.Increment (Heap.Merge (fun _ => VectorClock.mk "A" [("A", 1)]) 0 0) 0) 0).timestamps
      = [("A", 2)] ∧
    Heap.Compare (Heap.Increment (Heap.Merge (fun _ => VectorClock.mk "A" [("A", 1)]) 0 0) 0) 0 0
      = Relation.Equal ∧
    Heap.Compare (Heap.Increment (Heap.Merge (fun _ => VectorClock.mk "A" [("A", 1)]) 0 0) 0) 0 0
      ≠ Relation.After := by
  decide

/-- C9, amended: for a clock `a` with node identity `id` and every clock `b` other
than `a` itself, if neither `a[id]` nor `b[id]` is the maximum `uint64` value, then
after `a.Merge(b)` followed by `a.Increment()` the call `a.Compare(b)` returns
`After`.  In the scenario, `{A:1}` and `{B:1}` compare `Concurrent`; after
`A.Merge(B)` then `A.Increment()` the table of `A` is `{A:2, B:1}` and
`A.Compare(B)` is `After`. -/
theorem receive_event_after (h : Heap) (p q : Nat) (hpq : p ≠ q)
    (ha : (h p).timestamps.WF) (hb : (h q).timestamps.WF)
    (hamax : Table.get (h p).timestamps (h p).nodeID ≠ U64 - 1)
    (hbmax : Table.get (h q).timestamps (h p).nodeID ≠ U64 - 1) :
    Heap.Compare (Heap.Increment (Heap.Merge h p q) p) p q = Relation.After ∧
    ((scenario 0).timestamps = [("A", 1)] ∧ (scenario 1).timestamps = [("B", 1)] ∧
      Heap.Compare scenario 0 1 = Relation.Concurrent ∧
      ((Heap.Increment (Heap.Merge scenario 0 1) 0) 0).timestamps = [("A", 2), ("B", 1)] ∧
      Heap.Compare (Heap.Increment (Heap.Merge scenario 0 1) 0) 0 1 = Relation.After) := by
  refine ⟨?_, by decide⟩
  have hp : (Heap.Increment (Heap.Merge h p q) p) p =
      VectorClock.Increment (VectorClock.Merge (h p) (h q)) := by
    unfold Heap.Increment Heap.Merge
    rw [Function.update_same, Function.update_same]
  have hq : (Heap.Increment (Heap.Merge h p q) p) q = h q := by
    unfold Heap.Increment Heap.Merge
    rw [Function.update_noteq hpq.symm, Function.update_noteq hpq.symm]
  unfold Heap.Compare
  rw [hp, hq]
  exact VectorClock.Compare_Increment_Merge (h p) (h q) ha hb hamax hbmax

/-- The amended C9 at the scenario: clock "A" at address 0 receives from clock "B"
at address 1. -/
theorem receive_event_after_witness :
    (0 : Nat) ≠ 1 ∧ (scenario 0).timestamps.WF ∧ (scenario 1).timestamps.WF ∧
    Table.get (scenario 0).timestamps (scenario 0).nodeID ≠ U64 - 1 ∧
    Table.get (scenario 1).timestamps (scenario 0).nodeID ≠ U64 - 1 ∧
    Heap.Compare (Heap.Increment (Heap.Merge scenario 0 1) 0) 0 1 = Relation.After :=
  ⟨by decide, by decide, by decide, by decide, by decide,
    (receive_event_after scenario 0 1 (by decide) (by decide) (by decide) (by decide)
      (by decide)).1⟩

/-- C10 fails as stated when one table is empty: the empty table and `{n2:1}` have
disjoint key sets and every stored counter is positive, yet `Compare` returns
`Before`, not `Concurrent`. -/
theorem compare_disjoint_positive_counterexample :
    (∀ k, k ∈ Table.keys (NewVectorClock "n1").timestamps →
      k ∉ Table.keys (VectorClock.mk "n2" [("n2", 1)]).timestamps) ∧
    (∀ e ∈ (NewVectorClock "n1").timestamps, 0 < e.2) ∧
    (∀ e ∈ (VectorClock.mk "n2" [("n2", 1)]).timestamps, 0 < e.2) ∧
    (NewVectorClock "n1").Compare (VectorClock.mk "n2" [("n2", 1)]) = Relation.Before ∧
    (NewVectorClock "n1").Compare (VectorClock.mk "n2" [("n2", 1)]) ≠ Relation.Concurrent := by
  refine ⟨?_, ?_, ?_, by decide, by decide⟩
  · intro k hk
    simp [NewVectorClock, Table.keys] at hk
  · intro e he
    simp [NewVectorClock] at he
  · decide

/-- C10, amended: for every pair of non-empty tables `a` and `b` whose key sets are
disjoint and whose every stored counter is positive, `a.Compare(b)` returns
`Concurrent` (for instance `{n1:1}` against `{n2:1}`). -/
theorem compare_disjoint_positive (a b : VectorClock)
    (ha : a.timestamps.WF) (hb : b.timestamps.WF)
    (hane : a.timestamps ≠ []) (hbne : b.timestamps ≠ [])
    (hdisj : ∀ k, k ∈ Table.keys a.timestamps → k ∉ Table.keys b.timestamps)
    (hapos : ∀ e ∈ a.timestamps, 0 < e.2) (hbpos : ∀ e ∈ b.timestamps, 0 < e.2) :
    a.Compare b = Relation.Concurrent := by
  rw [VectorClock.Compare_eq_Concurrent_iff a b ha hb, VectorClock.not_AllLe_iff,
    VectorClock.not_AllLe_iff]
  obtain ⟨ea, hea⟩ := List.exists_mem_of_ne_nil _ hane
  obtain ⟨eb, heb⟩ := List.exists_mem_of_ne_nil _ hbne
  have hka : ea.1 ∈ Table.keys a.timestamps := List.mem_map_of_mem Prod.fst hea
  have hkb : eb.1 ∈ Table.keys b.timestamps := List.mem_map_of_mem Prod.fst heb
  refine ⟨⟨ea.1, ?_⟩, ⟨eb.1, ?_⟩⟩
  · rw [Table.get_eq_zero_of_not_mem (hdisj _ hka),
      Table.get_of_lookup (Table.lookup_of_mem ha.1 hea)]
    exact hapos ea hea
  · rw [Table.get_eq_zero_of_not_mem (fun c => hdisj _ c hkb),
      Table.get_of_lookup (Table.lookup_of_mem hb.1 heb)]
    exact hbpos eb heb

/-- The amended C10 at `{n1:1}` against `{n2:1}`. -/
theorem compare_disjoint_positive_witness :
    Table.WF [("n1", 1)] ∧ Table.WF [("n2", 1)] ∧
    (VectorClock.mk "n1" [("n1", 1)]).Compare (VectorClock.mk "n2" [("n2", 1)])
      = Relation.Concurrent :=
  ⟨by decide, by decide,
    compare_disjoint_positive (VectorClock.mk "n1" [("n1", 1)])
      (VectorClock.mk "n2" [("n2", 1)]) (by decide) (by decide) (by decide) (by decide)
      (by decide) (by decide) (by decide)⟩

/-! ## Serialisation and `Increment` -/

/-- C11: for every clock `x` and every clock `y` in any prior state (also `y = x`),
after `y.FromMap(x.ToMap())` the result of `y.ToMap()` equals `x.ToMap()` exactly:
the table of `y` has the entries of `x` and no other key of its prior table; and the
table of `x` is unchanged. -/
theorem fromMap_toMap_roundtrip (h : Heap) (x y : Nat) (hx : (h x).timestamps.WF) :
    Heap.ToMap (Heap.FromMap h y (Heap.ToMap h x)) y = Heap.ToMap h x ∧
    (∀ k, Table.lookup ((Heap.FromMap h y (Heap.ToMap h x)) y).timestamps k =
      Table.lookup (h x).timestamps k) ∧
    (∀ k, k ∈ Table.keys ((Heap.FromMap h y (Heap.ToMap h x)) y).timestamps ↔
      k ∈ Table.keys (h x).timestamps) ∧
    ((Heap.FromMap h y (Heap.ToMap h x)) x).timestamps = (h x).timestamps := by
  have hto : Heap.ToMap h x = (h x).timestamps := VectorClock.ToMap_eq (h x) hx
  have hy : ((Heap.FromMap h y (Heap.ToMap h x)) y).timestamps = (h x).timestamps := by
    unfold Heap.FromMap
    rw [Function.update_same, hto]
    exact VectorClock.timestamps_FromMap _ _ hx.1
  refine ⟨?_, ?_, ?_, ?_⟩
  · show VectorClock.ToMap ((Heap.FromMap h y (Heap.ToMap h x)) y) = Heap.ToMap h x
    rw [VectorClock.ToMap_eq _ (by rw [hy]; exact hx), hy]
    exact hto.symm
  · intro k
    rw [hy]
  · intro k
    rw [hy]
  · by_cases hxy : x = y
    · subst hxy
      exact hy
    · unfold Heap.FromMap
      rw [Function.update_noteq hxy]

/-- The statement of C11 for `x = {A:3, B:1}` at address 0 loaded into
`y = {B:7, C:2}` at address 1. -/
theorem fromMap_toMap_roundtrip_witness :
    Table.WF [("A", 3), ("B", 1)] ∧
    Heap.ToMap (Heap.FromMap (fun n => if n = 0 then VectorClock.mk "A" [("A", 3), ("B", 1)]
        else VectorClock.mk "B" [("B", 7), ("C", 2)]) 1
      (Heap.ToMap (fun n => if n = 0 then VectorClock.mk "A" [("A", 3), ("B", 1)]
        else VectorClock.mk "B" [("B", 7), ("C", 2)]) 0)) 1 =
      Heap.ToMap (fun n => if n = 0 then VectorClock.mk "A" [("A", 3), ("B", 1)]
        else VectorClock.mk "B" [("B", 7), ("C", 2)]) 0 ∧
    Heap.ToMap (fun n => if n = 0 then VectorClock.mk "A" [("A", 3), ("B", 1)]
        else VectorClock.mk "B" [("B", 7), ("C", 2)]) 0 = [("A", 3), ("B", 1)] :=
  ⟨by decide,
    (fromMap_toMap_roundtrip (fun n => if n = 0 then VectorClock.mk "A" [("A", 3), ("B", 1)]
        else VectorClock.mk "B" [("B", 7), ("C", 2)]) 0 1 (by decide)).1,
    by decide⟩

/-- C12 fails as stated at the maximum `uint64`: for the clock `{A: 2^64 - 1}` of node
"A", `Increment` leaves `{A: 0}`, not the previous value plus 1. -/
theorem increment_own_counter_counterexample :
    Table.WF [("A", 18446744073709551615)] ∧
    (VectorClock.Increment (VectorClock.mk "A" [("A", 18446744073709551615)])).timestamps
      = [("A", 0)] ∧
    Table.get (VectorClock.Increment
        (VectorClock.mk "A" [("A", 18446744073709551615)])).timestamps "A" ≠
      Table.get [("A", 18446744073709551615)] "A" + 1 := by
  decide

/-- C12, amended: `Increment` sets `timestamps[nodeID]` to its previous value plus 1
modulo `2^64`, reading an absent entry as 0: the previous value plus 1 whenever that
value is not the maximum `uint64` (so the first `Increment` on a new clock yields
`{nodeID: 1}`).  It leaves every other entry of the table and the `nodeID`
unchanged. -/
theorem increment_own_counter (vc : VectorClock) :
    Table.lookup (VectorClock.Increment vc).timestamps vc.nodeID =
      some ((Table.get vc.timestamps vc.nodeID + 1) % U64) ∧
    (vc.timestamps.WF → Table.get vc.timestamps vc.nodeID ≠ U64 - 1 →
      Table.lookup (VectorClock.Increment vc).timestamps vc.nodeID =
        some (Table.get vc.timestamps vc.nodeID + 1)) ∧
    (∀ k, k ≠ vc.nodeID →
      Table.lookup (VectorClock.Increment vc).timestamps k = Table.lookup vc.timestamps k) ∧
    (VectorClock.Increment vc).nodeID = vc.nodeID ∧
    (∀ n, (VectorClock.Increment (NewVectorClock n)).timestamps = [(n, 1)]) := by
  have hown : Table.lookup (VectorClock.Increment vc).timestamps vc.nodeID =
      some ((Table.get vc.timestamps vc.nodeID + 1) % U64) := by
    unfold VectorClock.Increment
    simp only [Table.lookup_set, if_true]
  refine ⟨hown, ?_, ?_, rfl, ?_⟩
  · intro hwf hmax
    rw [hown]
    have hlt := Table.get_lt_of_WF hwf vc.nodeID
    have hU : U64 = 18446744073709551616 := by simp [U64]
    rw [Nat.mod_eq_of_lt (by omega)]
  · intro k hk
    exact VectorClock.lookup_Increment_ne vc hk
  · intro n
    simp [VectorClock.Increment, NewVectorClock, Table.set, Table.get, Table.lookup, U64]

/-- The amended C12 at the clock `{A:4, B:2}` of node "A": the own counter becomes 5. -/
theorem increment_own_counter_witness :
    Table.WF [("A", 4), ("B", 2)] ∧ Table.get [("A", 4), ("B", 2)] "A" ≠ U64 - 1 ∧
    Table.lookup (VectorClock.Increment (VectorClock.mk "A" [("A", 4), ("B", 2)])).timestamps
        (VectorClock.mk "A" [("A", 4), ("B", 2)]).nodeID =
      some (Table.get (VectorClock.mk "A" [("A", 4), ("B", 2)]).timestamps
        (VectorClock.mk "A" [("A", 4), ("B", 2)]).nodeID + 1) ∧
    (VectorClock.Increment (VectorClock.mk "A" [("A", 4), ("B", 2)])).timestamps
      = [("A", 5), ("B", 2)] :=
  ⟨by decide, by decide,
    (increment_own_counter (VectorClock.mk "A" [("A", 4), ("B", 2)])).2.1
      (by decide) (by decide),
    by decide⟩

/-! ## Growth of the table, dominance after `Merge`, transitivity -/

/-- C17 fails as stated for `FromMap` and for `Increment` at the maximum `uint64`:
`FromMap({A:1})` on the clock `{A:5, B:2}` deletes the key "B" and lowers the counter
of "A" from 5 to 1; `Increment` on the clock `{A: 2^64 - 1}` of node "A" lowers the
counter of "A" to 0. -/
theorem table_only_grows_counterexample :
    ("B" ∈ Table.keys ((fun _ => VectorClock.mk "A" [("A", 5), ("B", 2)]) 0).timestamps ∧
      "B" ∉ Table.keys ((Heap.step (fun _ => VectorClock.mk "A" [("A", 5), ("B", 2)])
        (Op.FromMap 0 [("A", 1)])) 0).timestamps ∧
      Table.get ((Heap.step (fun _ => VectorClock.mk "A" [("A", 5), ("B", 2)])
        (Op.FromMap 0 [("A", 1)])) 0).timestamps "A" = 1 ∧
      Table.get ((fun _ => VectorClock.mk "A" [("A", 5), ("B", 2)]) 0).timestamps "A" = 5) ∧
    (Table.get ((Heap.step (fun _ => VectorClock.mk "A" [("A", 18446744073709551615)])
        (Op.Increment 0)) 0).timestamps "A" = 0 ∧
      Table.get ((fun _ => VectorClock.mk "A" [("A", 18446744073709551615)]) 0).timestamps "A"
        = 18446744073709551615) := by
  decide

/-- C17, amended: for every state and every call of `Increment` (when the clock's own
counter is not the maximum `uint64`), `Merge`, `Compare` or `ToMap`, with every
argument, every key present in a table before the call is still present after it and
no counter is lower after the call than before.  `FromMap(data)` is the exception: it
replaces the table by `data`. -/
theorem table_only_grows (h : Heap) (op : Op) (hwf : ∀ r, (h r).timestamps.WF)
    (hfrom : ∀ p data, op ≠ Op.FromMap p data)
    (hinc : ∀ p, op = Op.Increment p →
      Table.get (h p).timestamps (h p).nodeID ≠ U64 - 1) :
    (∀ r k, (k ∈ Table.keys (h r).timestamps →
        k ∈ Table.keys ((Heap.step h op) r).timestamps) ∧
      Table.get (h r).timestamps k ≤ Table.get ((Heap.step h op) r).timestamps k) ∧
    (∀ p data, (Table.keys data).Nodup →
      ((Heap.step h (Op.FromMap p data)) p).timestamps = data) := by
  refine ⟨?_, ?_⟩
  · intro r k
    cases op with
    | Increment p =>
      show (k ∈ Table.keys (h r).timestamps →
          k ∈ Table.keys ((Heap.Increment h p) r).timestamps) ∧
        Table.get (h r).timestamps k ≤ Table.get ((Heap.Increment h p) r).timestamps k
      unfold Heap.Increment
      by_cases hr : r = p
      · subst hr
        rw [Function.update_same]
        refine ⟨fun hk => (VectorClock.mem_keys_Increment _ k).2 (Or.inr hk), ?_⟩
        rw [VectorClock.get_Increment]
        by_cases hk : (h r).nodeID = k
        · subst hk
          simp only [if_true]
          have hlt := Table.get_lt_of_WF (hwf r) (h r).nodeID
          have hmax := hinc r rfl
          have hU : U64 = 18446744073709551616 := by simp [U64]
          rw [Nat.mod_eq_of_lt (by omega)]
          exact Nat.le_succ _
        · simp only [hk, if_false]
          exact Nat.le_refl _
      · rw [Function.update_noteq hr]
        exact ⟨id, Nat.le_refl _⟩
    | Merge p q =>
      show (k ∈ Table.keys (h r).timestamps →
          k ∈ Table.keys ((Heap.Merge h p q) r).timestamps) ∧
        Table.get (h r).timestamps k ≤ Table.get ((Heap.Merge h p q) r).timestamps k
      unfold Heap.Merge
      by_cases hr : r = p
      · subst hr
        rw [Function.update_same]
        refine ⟨fun hk => (VectorClock.mem_keys_Merge _ _ (hwf q) k).2 (Or.inl hk), ?_⟩
        rw [VectorClock.get_Merge _ _ (hwf q)]
        exact Nat.le_max_left _ _
      · rw [Function.update_noteq hr]
        exact ⟨id, Nat.le_refl _⟩
    | Compare p q => exact ⟨id, Nat.le_refl _⟩
    | ToMap p => exact ⟨id, Nat.le_refl _⟩
    | FromMap p data => exact absurd rfl (hfrom p data)
  · intro p data hdata
    show ((Heap.FromMap h p data) p).timestamps = data
    unfold Heap.FromMap
    rw [Function.update_same]
    exact VectorClock.timestamps_FromMap _ _ hdata

/-- The amended C17 at `Increment` on the clock `{A:1}` of the scenario: the key "A"
stays and its counter goes from 1 to 2. -/
theorem table_only_grows_witness :
    Table.get (scenario 0).timestamps (scenario 0).nodeID ≠ U64 - 1 ∧
    (("A" ∈ Table.keys (scenario 0).timestamps →
        "A" ∈ Table.keys ((Heap.step scenario (Op.Increment 0)) 0).timestamps) ∧
      Table.get (scenario 0).timestamps "A" ≤
        Table.get ((Heap.step scenario (Op.Increment 0)) 0).timestamps "A") ∧
    ((Heap.step scenario (Op.Increment 0)) 0).timestamps = [("A", 2)] :=
  ⟨by decide,
    (table_only_grows scenario (Op.Increment 0)
      (fun r => by
        by_cases h0 : r = 0
        · subst h0; decide
        · by_cases h1 : r = 1
          · subst h1; decide
          · simp [scenario, Heap.Increment, Function.update, h0, h1, NewVectorClock,
              Table.WF_nil])
      (fun p data c => Op.noConfusion c)
      (fun p c => by cases c; decide)).1 0 "A",
    by decide⟩

/-- C19: a merged clock dominates its argument: immediately after `a.Merge(b)` the
call `a.Compare(b)` returns `After` or `Equal`, never `Before` or `Concurrent`, and
`b.Compare(a)` returns `Before` or `Equal`; also when `b` is the clock `a` itself. -/
theorem merge_dominates (h : Heap) (p q : Nat)
    (ha : (h p).timestamps.WF) (hb : (h q).timestamps.WF) :
    (Heap.Compare (Heap.Merge h p q) p q = Relation.After ∨
      Heap.Compare (Heap.Merge h p q) p q = Relation.Equal) ∧
    Heap.Compare (Heap.Merge h p q) p q ≠ Relation.Before ∧
    Heap.Compare (Heap.Merge h p q) p q ≠ Relation.Concurrent ∧
    (Heap.Compare (Heap.Merge h p q) q p = Relation.Before ∨
      Heap.Compare (Heap.Merge h p q) q p = Relation.Equal) := by
  have hp : (Heap.Merge h p q) p = VectorClock.Merge (h p) (h q) := by
    unfold Heap.Merge
    exact Function.update_same _ _ _
  have hleft : Heap.Compare (Heap.Merge h p q) p q = Relation.After ∨
      Heap.Compare (Heap.Merge h p q) p q = Relation.Equal := by
    unfold Heap.Compare
    by_cases hpq : q = p
    · subst hpq
      right
      rw [hp, VectorClock.Compare_eq_Equal_iff _ _ (VectorClock.WF_Merge _ _ ha ha)
        (VectorClock.WF_Merge _ _ ha ha), VectorClock.not_Differ_iff]
      intro k
      rfl
    · have hq : (Heap.Merge h p q) q = h q := by
        unfold Heap.Merge
        exact Function.update_noteq hpq _ _
      rw [hp, hq]
      exact VectorClock.Compare_Merge_left (h p) (h q) ha hb
  have hright : Heap.Compare (Heap.Merge h p q) q p = Relation.Before ∨
      Heap.Compare (Heap.Merge h p q) q p = Relation.Equal := by
    unfold Heap.Compare
    by_cases hpq : q = p
    · subst hpq
      right
      rw [hp, VectorClock.Compare_eq_Equal_iff _ _ (VectorClock.WF_Merge _ _ ha ha)
        (VectorClock.WF_Merge _ _ ha ha), VectorClock.not_Differ_iff]
      intro k
      rfl
    · have hq : (Heap.Merge h p q) q = h q := by
        unfold Heap.Merge
        exact Function.update_noteq hpq _ _
      rw [hp, hq]
      exact VectorClock.Compare_Merge_right (h p) (h q) ha hb
  refine ⟨hleft, ?_, ?_, hright⟩
  · rcases hleft with h1 | h1 <;> rw [h1] <;> decide
  · rcases hleft with h1 | h1 <;> rw [h1] <;> decide

/-- The statement of C19 in the scenario: after `{A:1}` merges `{B:1}` it is `After`
the argument, and the argument is `Before` it. -/
theorem merge_dominates_witness :
    (scenario 0).timestamps.WF ∧ (scenario 1).timestamps.WF ∧
    (Heap.Compare (Heap.Merge scenario 0 1) 0 1 = Relation.After ∨
      Heap.Compare (Heap.Merge scenario 0 1) 0 1 = Relation.Equal) ∧
    Heap.Compare (Heap.Merge scenario 0 1) 0 1 = Relation.After ∧
    Heap.Compare (Heap.Merge scenario 0 1) 1 0 = Relation.Before :=
  ⟨by decide, by decide,
    (merge_dominates scenario 0 1 (by decide) (by decide)).1, by decide, by decide⟩

/-- C20: the `Before` relation computed by `Compare` is transitive: if
`a.Compare(b)` and `b.Compare(c)` are `Before` then `a.Compare(c)` is `Before`, also
when the three tables have different key sets. -/
theorem before_transitive (a b c : VectorClock)
    (ha : a.timestamps.WF) (hb : b.timestamps.WF) (hc : c.timestamps.WF)
    (hab : a.Compare b = Relation.Before) (hbc : b.Compare c = Relation.Before) :
    a.Compare c = Relation.Before := by
  rw [VectorClock.Compare_eq_Before_iff a b ha hb, VectorClock.AllLe_iff,
    VectorClock.Differ_iff] at hab
  rw [VectorClock.Compare_eq_Before_iff b c hb hc, VectorClock.AllLe_iff,
    VectorClock.Differ_iff] at hbc
  rw [VectorClock.Compare_eq_Before_iff a c ha hc, VectorClock.AllLe_iff,
    VectorClock.Differ_iff]
  obtain ⟨⟨k, hk⟩, hle1⟩ := hab
  obtain ⟨_, hle2⟩ := hbc
  refine ⟨⟨k, ?_⟩, fun j => Nat.le_trans (hle1 j) (hle2 j)⟩
  have h1 := hle1 k
  have h2 := hle2 k
  omega

/-- The statement of C20 at `{A:1}`, `{A:1, B:1}` and `{C:1, B:2, A:1}`. -/
theorem before_transitive_witness :
    (VectorClock.mk "A" [("A", 1)]).Compare (VectorClock.mk "B" [("A", 1), ("B", 1)])
      = Relation.Before ∧
    (VectorClock.mk "B" [("A", 1), ("B", 1)]).Compare
      (VectorClock.mk "C" [("C", 1), ("B", 2), ("A", 1)]) = Relation.Before ∧
    (VectorClock.mk "A" [("A", 1)]).Compare
      (VectorClock.mk "C" [("C", 1), ("B", 2), ("A", 1)]) = Relation.Before :=
  ⟨by decide, by decide,
    before_transitive (VectorClock.mk "A" [("A", 1)]) (VectorClock.mk "B" [("A", 1), ("B", 1)])
      (VectorClock.mk "C" [("C", 1), ("B", 2), ("A", 1)])
      (by decide) (by decide) (by decide) (by decide) (by decide)⟩

end VectorClockModel

namespace Lamport

/-! ## Wrap-around of `int64` -/

theorem I64.wrap_of_inRange {z : Int} (h : I64.InRange z) : I64.wrap z = z := by
  unfold I64.InRange I64.MIN I64.MAX at h
  unfold I64.wrap
  omega

theorem I64.wrap_inRange (z : Int) : I64.InRange (I64.wrap z) := by
  unfold I64.InRange I64.MIN I64.MAX I64.wrap
  omega

theorem I64.wrap_add (x y : Int) : I64.wrap (I64.wrap x + y) = I64.wrap (x + y) := by
  unfold I64.wrap
  omega

/-! ## Sequential calls of `Increment` -/

namespace LogicalClock

theorem IncrementTimes_time (lc : LogicalClock) (n : Nat) (h : I64.InRange lc.time) :
    (IncrementTimes lc n).1.time = I64.wrap (lc.time + n) := by
  induction n generalizing lc with
  | zero =>
    simp only [IncrementTimes, Nat.cast_zero, Int.add_zero]
    exact (I64.wrap_of_inRange h).symm
  | succ n ih =>
    have hstep : I64.InRange (Increment lc).1.time := I64.wrap_inRange _
    show (IncrementTimes (Increment lc).1 n).1.time = I64.wrap (lc.time + ((n + 1 : Nat) : Int))
    rw [ih _ hstep]
    show I64.wrap (I64.wrap (lc.time + 1) + n) = I64.wrap (lc.time + ((n + 1 : Nat) : Int))
    rw [I64.wrap_add]
    congr 1
    push_cast
    omega

theorem IncrementTimes_returns (lc : LogicalClock) (n k : Nat) (hk : k < n) :
    (IncrementTimes lc n).2[k]? = some (I64.wrap (lc.time + ((k + 1 : Nat) : Int))) := by
  induction n generalizing lc k with
  | zero => exact absurd hk (Nat.not_lt_zero k)
  | succ n ih =>
    show ((Increment lc).2 :: (IncrementTimes (Increment lc).1 n).2)[k]? = _
    cases k with
    | zero =>
      rw [List.getElem?_cons_zero]
      rfl
    | succ j =>
      rw [List.getElem?_cons_succ, ih _ j (Nat.lt_of_succ_lt_succ hk)]
      show some (I64.wrap (I64.wrap (lc.time + 1) + ((j + 1 : Nat) : Int))) = _
      rw [I64.wrap_add]
      congr 2
      push_cast
      omega

end LogicalClock

/-! ## The contract of `LogicalClock` -/

/-- C13 fails as stated at the maximum `int64`: from the local time `2^63 - 1`,
`Update(0)` sets the time to `-2^63` and returns it; that is neither
`max(t, r) + 1` nor greater than the prior time. -/
theorem update_strictly_greater_counterexample :
    I64.InRange I64.MAX ∧ I64.InRange 0 ∧
    (LogicalClock.Update (NewLogicalClock I64.MAX) 0).2 = -9223372036854775808 ∧
    (LogicalClock.Update (NewLogicalClock I64.MAX) 0).1.time ≠ max I64.MAX 0 + 1 ∧
    ¬ (LogicalClock.Update (NewLogicalClock I64.MAX) 0).2 > I64.MAX := by
  decide

/-- C13, amended: for every prior local time `t` and every received time `r` with
`max(t, r)` below the maximum `int64`, `Update(r)` sets the time to `max(t, r) + 1`
and returns that new value, which is strictly greater than both `t` and `r`
(`t=5, r=3` gives 6; `t=3, r=5` gives 6; `t=0, r=0` gives 1). -/
theorem update_strictly_greater (lc : LogicalClock) (r : Int)
    (ht : I64.InRange lc.time) (hmax : max lc.time r < I64.MAX) :
    (LogicalClock.Update lc r).1.time = max lc.time r + 1 ∧
    (LogicalClock.Update lc r).2 = max lc.time r + 1 ∧
    (LogicalClock.Update lc r).2 > lc.time ∧
    (LogicalClock.Update lc r).2 > r ∧
    (LogicalClock.Update (NewLogicalClock 5) 3 = (NewLogicalClock 6, 6) ∧
      LogicalClock.Update (NewLogicalClock 3) 5 = (NewLogicalClock 6, 6) ∧
      LogicalClock.Update (NewLogicalClock 0) 0 = (NewLogicalClock 1, 1)) := by
  have hw : I64.wrap (max lc.time r + 1) = max lc.time r + 1 := by
    apply I64.wrap_of_inRange
    have h1 : lc.time ≤ max lc.time r := Int.le_max_left _ _
    unfold I64.InRange I64.MIN I64.MAX at *
    omega
  have h1 : lc.time ≤ max lc.time r := Int.le_max_left _ _
  have h2 : r ≤ max lc.time r := Int.le_max_right _ _
  have hres : (LogicalClock.Update lc r).2 = max lc.time r + 1 := hw
  refine ⟨hw, hres, ?_, ?_, by decide⟩
  · rw [hres]
    omega
  · rw [hres]
    omega

/-- The amended C13 at `t = 3`, `r = 5`: the result is 6. -/
theorem update_strictly_greater_witness :
    I64.InRange (NewLogicalClock 3).time ∧ max (NewLogicalClock 3).time 5 < I64.MAX ∧
    (LogicalClock.Update (NewLogicalClock 3) 5).2 = max (NewLogicalClock 3).time 5 + 1 ∧
    (LogicalClock.Update (NewLogicalClock 3) 5).2 = 6 :=
  ⟨by decide, by decide,
    (update_strictly_greater (NewLogicalClock 3) 5 (by decide) (by decide)).2.1, by decide⟩

/-- C14 fails as stated at the maximum `int64`: one `Increment` on
`NewLogicalClock(2^63 - 1)` returns `-2^63`, and `Now()` then returns `-2^63`,
not `v + 1`. -/
theorem increment_times_counterexample :
    I64.InRange I64.MAX ∧
    (LogicalClock.IncrementTimes (NewLogicalClock I64.MAX) 1).2 = [-9223372036854775808] ∧
    (LogicalClock.Now (LogicalClock.IncrementTimes (NewLogicalClock I64.MAX) 1).1).2
      = -9223372036854775808 ∧
    (LogicalClock.Now (LogicalClock.IncrementTimes (NewLogicalClock I64.MAX) 1).1).2
      ≠ I64.MAX + 1 := by
  decide

/-- C14, amended: for every starting value `v` and every `n ≥ 0`, after `n`
sequential calls of `Increment` on `NewLogicalClock(v)`, `Now()` returns `v + n`
wrapped into `int64` and the `k`-th call (`1 ≤ k ≤ n`) returns `v + k` wrapped into
`int64`; these are `v + n` and `v + k` themselves whenever `v + n` does not exceed
the maximum `int64`.  `Now()` does not change the time:
`NewLogicalClock(v).Now() == v`. -/
theorem increment_times (v : Int) (n : Nat) (hv : I64.InRange v) :
    ((LogicalClock.Now (LogicalClock.IncrementTimes (NewLogicalClock v) n).1).2
        = I64.wrap (v + n) ∧
      ∀ k, 1 ≤ k → k ≤ n →
        (LogicalClock.IncrementTimes (NewLogicalClock v) n).2[k - 1]?
          = some (I64.wrap (v + k))) ∧
    (v + n ≤ I64.MAX →
      (LogicalClock.Now (LogicalClock.IncrementTimes (NewLogicalClock v) n).1).2 = v + n ∧
      ∀ k, 1 ≤ k → k ≤ n →
        (LogicalClock.IncrementTimes (NewLogicalClock v) n).2[k - 1]? = some (v + k)) ∧
    (LogicalClock.Now (NewLogicalClock v) = (NewLogicalClock v, v) ∧
      (LogicalClock.Now (LogicalClock.IncrementTimes (NewLogicalClock v) n).1).1
        = (LogicalClock.IncrementTimes (NewLogicalClock v) n).1) := by
  have htime : (LogicalClock.Now (LogicalClock.IncrementTimes (NewLogicalClock v) n).1).2
      = I64.wrap (v + n) :=
    LogicalClock.IncrementTimes_time (NewLogicalClock v) n hv
  have hret : ∀ k, 1 ≤ k → k ≤ n →
      (LogicalClock.IncrementTimes (NewLogicalClock v) n).2[k - 1]?
        = some (I64.wrap (v + k)) := by
    intro k h1 hkn
    have h := LogicalClock.IncrementTimes_returns (NewLogicalClock v) n (k - 1) (by omega)
    rw [h]
    have hk : k - 1 + 1 = k := by omega
    rw [hk]
    rfl
  refine ⟨⟨htime, hret⟩, ?_, rfl, rfl⟩
  intro hle
  have hrange : ∀ k : Nat, k ≤ n → I64.wrap (v + k) = v + k := by
    intro k hk
    apply I64.wrap_of_inRange
    unfold I64.InRange I64.MIN I64.MAX at *
    omega
  refine ⟨?_, ?_⟩
  · rw [htime, hrange n (Nat.le_refl n)]
  · intro k h1 hkn
    rw [hret k h1 hkn, hrange k hkn]

/-- The amended C14 at `v = 20`, `n = 3`: the calls return 21, 22, 23 and `Now()`
returns 23. -/
theorem increment_times_witness :
    I64.InRange 20 ∧ (20 : Int) + (3 : Nat) ≤ I64.MAX ∧
    (LogicalClock.Now (LogicalClock.IncrementTimes (NewLogicalClock 20) 3).1).2
      = 20 + (3 : Nat) ∧
    (LogicalClock.IncrementTimes (NewLogicalClock 20) 3).2 = [21, 22, 23] :=
  ⟨by decide, by decide,
    ((increment_times 20 3 (by decide)).2.1 (by decide)).1, by decide⟩

/-- C15: for every current time `t` and every `x`, `Advance(x)` leaves the clock as
it is when `x ≤ t` and sets the time to exactly `x` when `x > t`; it never moves the
time backward. -/
theorem advance_only_forward (lc : LogicalClock) (x : Int) :
    (x ≤ lc.time → LogicalClock.Advance lc x = lc) ∧
    (x > lc.time → (LogicalClock.Advance lc x).time = x) ∧
    lc.time ≤ (LogicalClock.Advance lc x).time := by
  by_cases h : x > lc.time
  · have hadv : LogicalClock.Advance lc x = { time := x } := by
      unfold LogicalClock.Advance
      rw [if_pos h]
    rw [hadv]
    exact ⟨fun hle => absurd h (Int.not_lt.2 hle), fun _ => rfl, Int.le_of_lt h⟩
  · have hadv : LogicalClock.Advance lc x = lc := by
      unfold LogicalClock.Advance
      rw [if_neg h]
    rw [hadv]
    exact ⟨fun _ => rfl, fun hgt => absurd hgt h, Int.le_refl _⟩

/-- The statement of C15 at the times of the tests: from 10, `Advance(15)` gives 15;
from 15, `Advance(5)` leaves 15. -/
theorem advance_only_forward_witness :
    (LogicalClock.Advance (NewLogicalClock 10) 15).time = 15 ∧
    LogicalClock.Advance (NewLogicalClock 15) 5 = NewLogicalClock 15 :=
  ⟨(advance_only_forward (NewLogicalClock 10) 15).2.1 (by decide),
    (advance_only_forward (NewLogicalClock 15) 5).1 (by decide)⟩

/-- C16 fails as stated at the maximum `int64`: from the time `2^63 - 1` both
`Increment` and `Update(0)` leave the time `-2^63`, lower than before. -/
theorem time_non_decreasing_counterexample :
    I64.InRange (NewLogicalClock I64.MAX).time ∧
    (LogicalClock.step (NewLogicalClock I64.MAX) Op.Increment).time = -9223372036854775808 ∧
    (LogicalClock.step (NewLogicalClock I64.MAX) (Op.Update 0)).time
      = -9223372036854775808 ∧
    ¬ (NewLogicalClock I64.MAX).time ≤
      (LogicalClock.step (NewLogicalClock I64.MAX) Op.Increment).time := by
  decide

/-- C16, amended: the time of a `LogicalClock` is non-decreasing under every public
operation whose addition does not overflow `int64`: for every state and every call
of `Increment` with the time below the maximum `int64`, of `Update(r)` with
`max(time, r)` below the maximum `int64`, of `Now` and of `Advance(x)` with every
argument, the time after the call is at least the time before it. -/
theorem time_non_decreasing (lc : LogicalClock) (op : Op)
    (ht : I64.InRange lc.time)
    (hinc : op = Op.Increment → lc.time < I64.MAX)
    (hupd : ∀ r, op = Op.Update r → max lc.time r < I64.MAX) :
    lc.time ≤ (LogicalClock.step lc op).time := by
  cases op with
  | Increment =>
    have h := hinc rfl
    show lc.time ≤ I64.wrap (lc.time + 1)
    rw [I64.wrap_of_inRange (by unfold I64.InRange I64.MIN I64.MAX at *; omega)]
    omega
  | Update r =>
    have h := hupd r rfl
    have h1 : lc.time ≤ max lc.time r := Int.le_max_left _ _
    show lc.time ≤ I64.wrap (max lc.time r + 1)
    rw [I64.wrap_of_inRange (by unfold I64.InRange I64.MIN I64.MAX at *; omega)]
    omega
  | Now => exact Int.le_refl _
  | Advance x =>
    show lc.time ≤ (LogicalClock.Advance lc x).time
    unfold LogicalClock.Advance
    by_cases h : x > lc.time
    · simp only [h, if_true]
      exact Int.le_of_lt h
    · simp only [h, if_false]
      exact Int.le_refl _

/-- The amended C16 at `Update(5)` from the time 3: the time goes from 3 to 6. -/
theorem time_non_decreasing_witness :
    I64.InRange (NewLogicalClock 3).time ∧ max (NewLogicalClock 3).time 5 < I64.MAX ∧
    (NewLogicalClock 3).time ≤ (LogicalClock.step (NewLogicalClock 3) (Op.Update 5)).time ∧
    (LogicalClock.step (NewLogicalClock 3) (Op.Update 5)).time = 6 :=
  ⟨by decide, by decide,
    time_non_decreasing (NewLogicalClock 3) (Op.Update 5) (by decide)
      (fun c => Op.noConfusion c)
      (fun r c => by cases c; decide),
    by decide⟩

end Lamport
